import Mathlib

/-!
A verification development for the token-transfer indexer.

The Rust sources are embedded shallowly:

* 256-bit unsigned integers (`alloy_primitives::U256`) become `Nat` together
  with explicit reduction modulo `2 ^ 256` exactly where the source uses
  wrapping arithmetic; `saturating_sub` is truncated `Nat` subtraction.
* SQLite tables become Lean values: the `transfers` table is a list of rows,
  the `tokens` table a list of rows, the `balances` table a function from
  addresses to an optional stored string (the padded decimal
  representation).  Text/hash/address columns are abstracted to `Nat`.
* Fallible operations return `Option`/`Except`; a `none`/`error` result
  models an SQL or decode error that rolls the enclosing transaction back.
* Iteration order over Rust `HashMap`s is modelled by first-occurrence
  order of the deduplicated key list; every loop body touches only the row
  of its own key, so the final table contents do not depend on the order.
-/

/-- The modulus of the 256-bit integer type. -/
def u256size : Nat := 2 ^ 256

/-- `U256::wrapping_add` on the `Nat` representation. -/
def wrappingAdd (a b : Nat) : Nat := (a + b) % u256size

/-- `U256::wrapping_sub` on the `Nat` representation (two's complement
subtraction modulo `2 ^ 256`). -/
def wrappingSub (a b : Nat) : Nat := (a + (u256size - b % u256size)) % u256size

/-- Helper for the decimal rendering of a `Nat`: most-significant digit
first, with explicit fuel so that the definition is structural. -/
def decDigitsAux : Nat → Nat → List Nat → List Nat
  | 0, _, acc => acc
  | fuel + 1, n, acc =>
    if n < 10 then n :: acc else decDigitsAux fuel (n / 10) (n % 10 :: acc)

/-- The decimal digits of `n`, most-significant first (`decDigits 0 = [0]`),
as produced by Rust's `Display` for unsigned integers. -/
def decDigits (n : Nat) : List Nat := decDigitsAux (n + 1) n []

/-- The numeric value of a most-significant-first digit list. -/
def decValue (l : List Nat) : Nat := l.foldl (fun s d => 10 * s + d) 0

/-- The numeric value of a most-significant-first list of digit characters. -/
def charsValue (l : List Char) : Nat := l.foldl (fun s c => 10 * s + (c.toNat - 48)) 0

namespace BalanceRepository

/-- `pad_balance`: the decimal rendering of a balance left-padded with `'0'`
to width 78 (`format!("{balance:0>78}")`). -/
def pad_balance (n : Nat) : String :=
  ⟨List.replicate (78 - (decDigits n).length) '0' ++ (decDigits n).map Nat.digitChar⟩

/-- The value of one decimal digit character, as accepted by
`U256::from_str`; `none` on any other character. -/
def charVal (c : Char) : Option Nat :=
  if '0' ≤ c ∧ c ≤ '9' then some (c.toNat - 48) else none

/-- Decimal parsing of a character list, failing on a non-digit. -/
def parseDecimal (l : List Char) : Option Nat :=
  l.foldlM (fun s c => (charVal c).map fun d => 10 * s + d) 0

/-- `U256::from_str` on a decimal string: fails on the empty string, on a
non-digit, and on a value that does not fit in 256 bits. -/
def from_str (l : List Char) : Option Nat :=
  if l.isEmpty then none
  else (parseDecimal l).bind fun v => if v < u256size then some v else none

/-- The read side used by `get_balance` and `apply_transfers`: strip leading
`'0'` characters; an empty remainder parses as zero. -/
def parse_padded (s : String) : Option Nat :=
  let trimmed := s.data.dropWhile (fun c => c == '0')
  if trimmed.isEmpty then some 0 else from_str trimmed

end BalanceRepository

/-- The `balances` table: address to stored `balance_padded` string;
`none` is an absent row. -/
abbrev Balances := Nat → Option String

/-- Point update of the balances table (`INSERT OR REPLACE` for
`some`, `DELETE` for `none`). -/
def setBalance (b : Balances) (a : Nat) (v : Option String) : Balances :=
  fun x => if x = a then v else b x

/-- One row of the `transfers` table (`repository::models::Transfer`). -/
structure Transfer where
  transaction_hash : Nat
  log_index : Nat
  token_address : Nat
  from_address : Nat
  to_address : Nat
  value : Nat
  block_number : Nat
  block_hash : Nat
  is_finalized : Bool
deriving DecidableEq, Repr

/-- The primary key `(transaction_hash, log_index)`. -/
def Transfer.key (t : Transfer) : Nat × Nat := (t.transaction_hash, t.log_index)

namespace BalanceRepository

/-- The accumulated credit of an address over a transfer list
(`balance_increases`), accumulated with wrapping addition. -/
def creditOf (ts : List Transfer) (a : Nat) : Nat :=
  (ts.filter (fun t => t.to_address == a)).foldl (fun s t => wrappingAdd s t.value) 0

/-- The accumulated debit of an address over a transfer list
(`balance_decreases`). -/
def debitOf (ts : List Transfer) (a : Nat) : Nat :=
  (ts.filter (fun t => t.from_address == a)).foldl (fun s t => wrappingAdd s t.value) 0

/-- The key set of `balance_increases`: recipients of the transfers. -/
def creditKeys (ts : List Transfer) : List Nat := (ts.map (·.to_address)).dedup

/-- The key set of `balance_decreases`: senders of the transfers. -/
def debitKeys (ts : List Transfer) : List Nat := (ts.map (·.from_address)).dedup

/-- The cell parse in `apply_transfers`: an absent row reads as zero, a
present row is parsed (a parse failure aborts the transaction). -/
def parseCell : Option String → Option Nat
  | none => some 0
  | some p => parse_padded p

/-- The loop body for an address with a `balance_increases` entry:
`balance.wrapping_add(increase)` then `saturating_sub(decrease)`; upsert
the padded value when positive, delete the row otherwise. -/
def applyCellCredited (credit debit : Nat) (cell : Option String) : Option (Option String) :=
  (parseCell cell).map fun cur =>
    let n := wrappingAdd cur credit - debit
    if 0 < n then some (pad_balance n) else none

/-- The loop body for an address that only sent: an absent row is left
untouched; a present row is decreased with `wrapping_sub`. -/
def applyCellDebitOnly (debit : Nat) : Option String → Option (Option String)
  | none => some none
  | some p => (parse_padded p).map fun cur =>
      let n := wrappingSub cur debit
      if 0 < n then some (pad_balance n) else none

/-- Fold a per-address cell update over a key list, threading the
transaction abort through `Option`. -/
def applyAddrs (step : Nat → Option String → Option (Option String)) :
    List Nat → Balances → Option Balances
  | [], b => some b
  | a :: rest, b =>
    match step a (b a) with
    | none => none
    | some v => applyAddrs step rest (setBalance b a v)

/-- `BalanceRepository::apply_transfers`: aggregate credits and debits of
the finalized transfers per address, then update each affected address in
one transaction. -/
def apply_transfers (ts : List Transfer) (b : Balances) : Option Balances :=
  if ts.isEmpty then some b
  else
    let fin := ts.filter (·.is_finalized)
    (applyAddrs (fun a cell => applyCellCredited (creditOf fin a) (debitOf fin a) cell)
        (creditKeys fin) b).bind
      (applyAddrs (fun a cell => applyCellDebitOnly (debitOf fin a) cell)
        ((debitKeys fin).filter (fun a => !(creditKeys fin).contains a)))

end BalanceRepository

namespace TransferRepository

/-- Whether some row of the table already carries the primary key `k`. -/
def hasKey (table : List Transfer) (k : Nat × Nat) : Bool :=
  table.any (fun u => u.key == k)

/-- One `INSERT OR IGNORE` of a row; the count is the number of rows
actually inserted (0 or 1). -/
def insertRow (table : List Transfer) (t : Transfer) : List Transfer × Nat :=
  if hasKey table t.key then (table, 0) else (table ++ [t], 1)

/-- Sequential `INSERT OR IGNORE` of a batch, summing the per-row counts. -/
def insertRows (table : List Transfer) : List Transfer → List Transfer × Nat
  | [] => (table, 0)
  | t :: rest =>
    let r := insertRow table t
    let r2 := insertRows r.1 rest
    (r2.1, r.2 + r2.2)

/-- `TransferRepository::insert_batch`: transactional `INSERT OR IGNORE` of
every row, returning the number of rows actually inserted. -/
def insert_batch (table ts : List Transfer) : List Transfer × Nat :=
  insertRows table ts

/-- `DELETE FROM transfers WHERE block_number = b`, with the affected-row
count. -/
def deleteBlock (table : List Transfer) (b : Nat) : List Transfer × Nat :=
  let kept := table.filter (fun t => t.block_number != b)
  (kept, table.length - kept.length)

/-- Sequential deletion of every listed block, summing counts. -/
def deleteBlocks (table : List Transfer) : List Nat → List Transfer × Nat
  | [] => (table, 0)
  | b :: rest =>
    let r := deleteBlock table b
    let r2 := deleteBlocks r.1 rest
    (r2.1, r.2 + r2.2)

/-- Whether a row lies in the finalization window. -/
def inWindow (f t0 : Nat) (t : Transfer) : Bool :=
  decide (f ≤ t.block_number ∧ t.block_number ≤ t0)

/-- The `UPDATE ... SET is_finalized` applied to one row. -/
def finalizeRow (f t0 : Nat) (t : Transfer) : Transfer :=
  if f ≤ t.block_number ∧ t.block_number ≤ t0 then
    ⟨t.transaction_hash, t.log_index, t.token_address, t.from_address,
     t.to_address, t.value, t.block_number, t.block_hash, true⟩
  else t

/-- `TransferRepository::process_finality_batch`: inside one transaction,
delete the listed blocks, `INSERT OR IGNORE` the replacement rows, and mark
the window `[mark_finalized_from, mark_finalized_to]` finalized.  Returns
the new table with the `(deleted, inserted, finalized)` counts; the
finalized count is SQLite's affected-row count of the `UPDATE`. -/
def process_finality_batch (table : List Transfer) (blocks_to_delete : List Nat)
    (transfers_to_insert : List Transfer)
    (mark_finalized_from mark_finalized_to : Nat) :
    List Transfer × Nat × Nat × Nat :=
  let d := deleteBlocks table blocks_to_delete
  let i := insertRows d.1 transfers_to_insert
  (i.1.map (finalizeRow mark_finalized_from mark_finalized_to), d.2, i.2,
   (i.1.filter (inWindow mark_finalized_from mark_finalized_to)).length)

end TransferRepository

/-- The in-memory token value (`repository::models::Token`, metadata
columns omitted). -/
structure Token where
  address : Nat
  deployment_block : Nat
  last_processed_block : Option Nat
  last_processed_finalized_block : Option Nat
deriving DecidableEq, Repr

/-- One stored row of the `tokens` table.  `last_processed_finalized_block`
is a nullable column with no default; `last_processed_block` is always
written by the repository. -/
structure TokenRow where
  address : Nat
  deployment_block : Nat
  last_processed_block : Nat
  last_processed_finalized_block : Option Nat
deriving DecidableEq, Repr

/-- Equality of fallible results is decidable componentwise. -/
instance {ε α : Type} [DecidableEq ε] [DecidableEq α] : DecidableEq (Except ε α) := by
  intro x y
  cases x <;> cases y
  case error.error e f =>
    exact if h : e = f then isTrue (by rw [h]) else isFalse (by intro hh; cases hh; exact h rfl)
  case error.ok e b => exact isFalse (by intro hh; cases hh)
  case ok.error b e => exact isFalse (by intro hh; cases hh)
  case ok.ok b c =>
    exact if h : b = c then isTrue (by rw [h]) else isFalse (by intro hh; cases hh; exact h rfl)

namespace TokenRepository

/-- Row lookup by address (the first matching row, as `query_row`). -/
def findToken : List TokenRow → Nat → Option TokenRow
  | [], _ => none
  | r :: rest, a => if r.address == a then some r else findToken rest a

/-- `TokenRepository::insert`: `INSERT OR IGNORE` binding only
`(address, deployment_block, last_processed_block, ...)`; the
`last_processed_finalized_block` column is not in the column list, so the
created row holds NULL there. -/
def insert (tokens : List TokenRow) (t : Token) : List TokenRow :=
  if tokens.any (fun r => r.address == t.address) then tokens
  else
    tokens ++
      [⟨t.address, t.deployment_block,
        t.last_processed_block.getD t.deployment_block, none⟩]

/-- `get_last_processed_finalized_block`: `.optional()` turns a missing row
into `none`; a present row with a NULL column fails to decode as `u64`
(`rusqlite::Error::InvalidColumnType`), modelled as `Except.error`. -/
def get_last_processed_finalized_block (tokens : List TokenRow) (a : Nat) :
    Except Unit (Option Nat) :=
  match findToken tokens a with
  | none => .ok none
  | some r =>
    match r.last_processed_finalized_block with
    | some v => .ok (some v)
    | none => .error ()

/-- `get_last_processed_block` (the column is always written non-NULL). -/
def get_last_processed_block (tokens : List TokenRow) (a : Nat) : Option Nat :=
  (findToken tokens a).map (·.last_processed_block)

/-- `update_last_processed_finalized_block`. -/
def update_last_processed_finalized_block (tokens : List TokenRow) (a v : Nat) :
    List TokenRow :=
  tokens.map fun r =>
    if r.address == a then ⟨r.address, r.deployment_block, r.last_processed_block, some v⟩
    else r

/-- `update_last_processed_block`. -/
def update_last_processed_block (tokens : List TokenRow) (a v : Nat) :
    List TokenRow :=
  tokens.map fun r =>
    if r.address == a then ⟨r.address, r.deployment_block, v, r.last_processed_finalized_block⟩
    else r

end TokenRepository

/-- The durable store: the three tables of one database file. -/
structure Store where
  transfers : List Transfer
  balances : Balances
  tokens : List TokenRow

/-- The chain as seen over RPC during a finality pass: the height of the
finalized tag and the decodable transfer events. -/
structure Chain where
  finalizedBlock : Nat
  logs : List Transfer

namespace Scanner

/-- `chain_block_hashes` after inserting every log in order (a later log of
the same block overwrites). -/
def chainHash (logs : List Transfer) (b : Nat) : Option Nat :=
  (logs.reverse.find? (fun t => t.block_number == b)).map (·.block_hash)

/-- The stored hash of a block among the rows of the window. -/
def storedHash (rows : List Transfer) (b : Nat) : Option Nat :=
  (rows.find? (fun t => t.block_number == b)).map (·.block_hash)

/-- `get_block_hashes_in_range` aborts when one block number carries two
distinct stored hashes. -/
def storedHashesConsistent (rows : List Transfer) : Bool :=
  rows.all fun t =>
    rows.all fun u => t.block_number != u.block_number || t.block_hash == u.block_hash

/-- One chunk `[cfrom, cto]` of `Scanner::update_finality`: fetch the chain
logs of the window, compare per-block hashes with the store, delete and
re-insert the blocks that differ, mark the window finalized, and apply the
balance deltas of every chain transfer of the window. -/
def processChunk (chain : Chain) (cfrom cto : Nat) (st : Store) : Option Store :=
  let chain_logs :=
    chain.logs.filter fun t => decide (cfrom ≤ t.block_number ∧ t.block_number ≤ cto)
  let stored :=
    st.transfers.filter fun t => decide (cfrom ≤ t.block_number ∧ t.block_number ≤ cto)
  if !storedHashesConsistent stored then none
  else
    let chain_transfers := chain_logs.map fun t =>
      ⟨t.transaction_hash, t.log_index, t.token_address, t.from_address,
       t.to_address, t.value, t.block_number, t.block_hash, true⟩
    let chainBlocks := (chain_logs.map (·.block_number)).dedup
    let storedBlocks := (stored.map (·.block_number)).dedup
    let blocks_to_reprocess :=
      chainBlocks.filter (fun b => storedHash stored b != chainHash chain_logs b) ++
        storedBlocks.filter (fun b => !chainBlocks.contains b)
    let transfers_to_insert := blocks_to_reprocess.flatMap fun b =>
      chain_transfers.filter (fun t => t.block_number == b)
    let r := TransferRepository.process_finality_batch st.transfers
      blocks_to_reprocess transfers_to_insert cfrom cto
    if chain_transfers.isEmpty then some ⟨r.1, st.balances, st.tokens⟩
    else
      (BalanceRepository.apply_transfers chain_transfers st.balances).map fun b2 =>
        ⟨r.1, b2, st.tokens⟩

/-- The chunk walk of `update_finality` from `current_from` up to `target`,
with fuel for structural recursion (the fuel supplied below always
suffices when `batch_size ≥ 1`). -/
def chunkWalk (batch_size : Nat) (chain : Chain) (target : Nat) :
    Nat → Nat → Store → Option Store
  | 0, _, _ => none
  | fuel + 1, current_from, st =>
    if target < current_from then some st
    else
      (processChunk chain current_from (min (current_from + batch_size - 1) target) st).bind
        (chunkWalk batch_size chain target fuel (min (current_from + batch_size - 1) target + 1))

/-- `Scanner::update_finality`: read both watermarks and the chain's
finalized height, walk `(last_finalized, min(chain_finalized,
last_processed)]` in chunks, then write the finalized watermark —
`chain_finalized` on the initial tick, the target otherwise.  `none` is a
failed tick (logged and swallowed by the caller). -/
def update_finality (addr batch_size : Nat) (is_initial : Bool) (chain : Chain)
    (st : Store) : Option Store :=
  match TokenRepository.get_last_processed_finalized_block st.tokens addr with
  | .error _ => none
  | .ok lfOpt =>
    let last_finalized := lfOpt.getD 0
    let last_processed := (TokenRepository.get_last_processed_block st.tokens addr).getD 0
    let target := min chain.finalizedBlock last_processed
    if target ≤ last_finalized then some st
    else
      (chunkWalk batch_size chain target (target + 1 - last_finalized)
          (last_finalized + 1) st).map
        fun st2 =>
          ⟨st2.transfers, st2.balances,
           TokenRepository.update_last_processed_finalized_block st2.tokens addr
             (if is_initial then chain.finalizedBlock else target)⟩

/-- A tick that failed after committing all its chunks but before the
separate watermark transaction: the chunk walk alone. -/
def update_finality_chunks (addr batch_size : Nat) (chain : Chain) (st : Store) :
    Option Store :=
  match TokenRepository.get_last_processed_finalized_block st.tokens addr with
  | .error _ => none
  | .ok lfOpt =>
    let last_finalized := lfOpt.getD 0
    let last_processed := (TokenRepository.get_last_processed_block st.tokens addr).getD 0
    let target := min chain.finalizedBlock last_processed
    if target ≤ last_finalized then some st
    else
      chunkWalk batch_size chain target (target + 1 - last_finalized)
        (last_finalized + 1) st

/-- The forward loop state of `Scanner::run` relevant to batch ordering:
the two counters, the `FuturesOrdered` queue of in-flight windows (oldest
first), and the trace of `TransferBatch` windows sent to the insertion
worker. -/
structure ScanState where
  nextToFetch : Nat
  nextToProcess : Nat
  pendingFetches : List (Nat × Nat)
  sentBatches : List (Nat × Nat)
deriving DecidableEq, Repr

/-- Both counters initialize to `last_processed_block + 1`. -/
def initState (last_processed_block : Nat) : ScanState :=
  ⟨last_processed_block + 1, last_processed_block + 1, [], []⟩

/-- One scheduler event of the forward loop.  `fire` enqueues a fetch for
`[next_to_fetch, min(next_to_fetch + batch_size - 1, latest)]` when the
queue has room; `complete` drains the oldest in-flight fetch and sends its
batch when the send condition holds (`has_transfers` abstracts whether the
window decoded any transfer); `idle` is the caught-up reset of
`next_block_to_fetch`.  `latest` is an arbitrary fresh chain height. -/
inductive ScanStep (batch_size max_pending : Nat) : ScanState → ScanState → Prop
  | fire (s : ScanState) (latest : Nat)
      (hroom : s.pendingFetches.length < max_pending)
      (hle : s.nextToFetch ≤ latest) :
      ScanStep batch_size max_pending s
        ⟨min (s.nextToFetch + batch_size - 1) latest + 1, s.nextToProcess,
         s.pendingFetches ++ [(s.nextToFetch, min (s.nextToFetch + batch_size - 1) latest)],
         s.sentBatches⟩
  | complete (s : ScanState) (w : Nat × Nat) (rest : List (Nat × Nat))
      (has_transfers : Bool) (hq : s.pendingFetches = w :: rest) :
      ScanStep batch_size max_pending s
        ⟨s.nextToFetch, w.2 + 1, rest,
         if has_transfers || decide (s.nextToProcess ≤ w.2) then s.sentBatches ++ [w]
         else s.sentBatches⟩
  | idle (s : ScanState) (latest : Nat)
      (hcaught : latest < s.nextToFetch) (hempty : s.pendingFetches = []) :
      ScanStep batch_size max_pending s
        ⟨s.nextToProcess, s.nextToProcess, s.pendingFetches, s.sentBatches⟩

/-- The states the forward loop can reach from a fresh start at
`last_processed_block = lp` under arbitrary interleaving of events. -/
inductive ScanReachable (batch_size max_pending lp : Nat) : ScanState → Prop
  | start : ScanReachable batch_size max_pending lp (initState lp)
  | step {s s' : ScanState} : ScanReachable batch_size max_pending lp s →
      ScanStep batch_size max_pending s s' → ScanReachable batch_size max_pending lp s'

/-- A window list is a contiguous chain covering `[a, c)` in order. -/
def WindowChain : Nat → List (Nat × Nat) → Nat → Prop
  | a, [], c => a = c
  | a, w :: rest, c => w.1 = a ∧ w.1 ≤ w.2 ∧ WindowChain (w.2 + 1) rest c

end Scanner

namespace RpcClient

/-- The error of one log fetch as observed by callers of
`get_logs_internal`: the recognized "exceeds max results" condition with
its parsed suggested range (if any), or any other failure after retries. -/
inductive LogError where
  | maxResults (suggested : Option (Nat × Nat))
  | otherError
deriving DecidableEq, Repr

/-- The outcome of one raw RPC attempt: success, the server-side result-cap
error (with the suggested range the regex extracts, when present), or a
transport/timeout/server failure. -/
inductive Attempt where
  | success (logs : List Nat)
  | capped (suggested : Option (Nat × Nat))
  | failed
deriving DecidableEq, Repr

/-- `max_retries` of `RpcClient`: the number of backoff delays taken from
the retry strategy; the initial attempt is not counted. -/
def max_retries : Nat := 5

/-- What a finished retried call reports: its result, the provider cursor
afterwards, and how many attempts ran. -/
structure RetryOutcome (α : Type) where
  result : Except LogError α
  cursor : Nat
  attempts : Nat
deriving Repr

/-- The `Retry::spawn` loop of `get_logs_internal`:  a success returns; the
result-cap error is returned through the `Ok(Err(..))` hack without
rotating and without consuming a retry; any other failure rotates the
cursor and retries while delays remain, the last failure still rotating.
`server f t k` is the outcome of attempt `k` on range `[f, t]`. -/
def get_logs_internal (server : Nat → Nat → Nat → Attempt) (pool f t : Nat) :
    Nat → Nat → Nat → RetryOutcome (List Nat)
  | 0, attempt, cursor =>
    match server f t attempt with
    | .success logs => ⟨.ok logs, cursor, attempt + 1⟩
    | .capped s => ⟨.error (.maxResults s), cursor, attempt + 1⟩
    | .failed => ⟨.error .otherError, (cursor + 1) % pool, attempt + 1⟩
  | retriesLeft + 1, attempt, cursor =>
    match server f t attempt with
    | .success logs => ⟨.ok logs, cursor, attempt + 1⟩
    | .capped s => ⟨.error (.maxResults s), cursor, attempt + 1⟩
    | .failed => get_logs_internal server pool f t retriesLeft (attempt + 1) ((cursor + 1) % pool)

/-- The shared retry loop of `get_latest_block` / `get_code_at_block`:
`op k` tells whether attempt `k` succeeds.  Returns success flag, final
cursor, and attempts run. -/
def retry_call (op : Nat → Bool) (pool : Nat) :
    Nat → Nat → Nat → Bool × Nat × Nat
  | 0, attempt, cursor =>
    if op attempt then (true, cursor, attempt + 1)
    else (false, (cursor + 1) % pool, attempt + 1)
  | retriesLeft + 1, attempt, cursor =>
    if op attempt then (true, cursor, attempt + 1)
    else retry_call op pool retriesLeft (attempt + 1) ((cursor + 1) % pool)

/-- The adaptive-split loop of `get_logs`, over an abstract
`internal from to` oracle (one fully retried `get_logs_internal` call per
requested range).  Fuel makes the recursion structural; a server whose
suggested ranges go backwards would loop forever in the source and
exhausts the fuel here. -/
def get_logs_go (internal : Nat → Nat → Except LogError (List Nat)) (to_block : Nat) :
    Nat → Nat → Except LogError (List Nat)
  | 0, _ => .error .otherError
  | fuel + 1, current_from =>
    if to_block < current_from then .ok []
    else
      match internal current_from to_block with
      | .ok logs => .ok logs
      | .error (.maxResults (some (a, b))) =>
        match internal a b with
        | .ok l1 => (get_logs_go internal to_block fuel (b + 1)).map (fun l2 => l1 ++ l2)
        | .error e => .error e
      | .error e => .error e

/-- `RpcClient::get_logs`: the splitter entered at `from_block`. -/
def get_logs (internal : Nat → Nat → Except LogError (List Nat)) (from_block to_block : Nat) :
    Except LogError (List Nat) :=
  get_logs_go internal to_block (to_block + 2 - from_block) from_block

end RpcClient

namespace InsertionWorker

/-- `insertion_worker::process_batch`: transactional batch insert followed
by the `last_processed_block` watermark update; the balances table is not
touched. -/
def process_batch (addr : Nat) (st : Store) (transfers : List Transfer)
    (end_block : Nat) : Store :=
  ⟨(TransferRepository.insert_batch st.transfers transfers).1, st.balances,
   TokenRepository.update_last_processed_block st.tokens addr end_block⟩

end InsertionWorker

namespace TransferRepository

theorem hasKey_append (table l : List Transfer) (k : Nat × Nat) :
    hasKey (table ++ l) k = (hasKey table k || hasKey l k) := by
  simp [hasKey, List.any_append]

theorem insertRows_subset :
    ∀ (ts table : List Transfer), ∀ u ∈ table, u ∈ (insertRows table ts).1 := by
  intro ts
  induction ts with
  | nil => intro table u hu; simpa [insertRows] using hu
  | cons t rest ih =>
    intro table u hu
    simp only [insertRows]
    apply ih
    unfold insertRow
    split
    · exact hu
    · exact List.mem_append_left _ hu

theorem insertRows_hasKey_mono :
    ∀ (ts table : List Transfer) (k : Nat × Nat), hasKey table k = true →
      hasKey (insertRows table ts).1 k = true := by
  intro ts
  induction ts with
  | nil => intro table k hk; simpa [insertRows] using hk
  | cons t rest ih =>
    intro table k hk
    simp only [insertRows]
    apply ih
    unfold insertRow
    split
    · exact hk
    · rw [hasKey_append, hk, Bool.true_or]

theorem insertRows_mem :
    ∀ (ts table : List Transfer), ∀ u ∈ (insertRows table ts).1, u ∈ table ∨ u ∈ ts := by
  intro ts
  induction ts with
  | nil => intro table u hu; exact Or.inl (by simpa [insertRows] using hu)
  | cons t rest ih =>
    intro table u hu
    simp only [insertRows] at hu
    rcases ih _ _ hu with h | h
    · unfold insertRow at h
      split at h
      · exact Or.inl h
      · rcases List.mem_append.mp h with h' | h'
        · exact Or.inl h'
        · exact Or.inr (by simpa using Or.inl (List.mem_singleton.mp h'))
    · exact Or.inr (List.mem_cons_of_mem _ h)

theorem insertRows_length :
    ∀ (ts table : List Transfer),
      (insertRows table ts).1.length = table.length + (insertRows table ts).2 := by
  intro ts
  induction ts with
  | nil => intro table; simp [insertRows]
  | cons t rest ih =>
    intro table
    simp only [insertRows]
    unfold insertRow
    split
    · simpa using ih table
    · have := ih (table ++ [t])
      simp only [List.length_append, List.length_singleton] at this
      dsimp only
      omega

theorem insertRows_keys_present :
    ∀ (ts table : List Transfer), ∀ u ∈ ts, hasKey (insertRows table ts).1 u.key = true := by
  intro ts
  induction ts with
  | nil => intro table u hu; cases hu
  | cons t rest ih =>
    intro table u hu
    rcases List.mem_cons.mp hu with rfl | hu'
    · simp only [insertRows]
      apply insertRows_hasKey_mono
      unfold insertRow
      split
      · assumption
      · rw [hasKey_append]
        simp [hasKey]
    · simp only [insertRows]
      exact ih _ _ hu'

theorem insertRows_all_present :
    ∀ (ts table : List Transfer), (∀ u ∈ ts, hasKey table u.key = true) →
      insertRows table ts = (table, 0) := by
  intro ts
  induction ts with
  | nil => intro table _; rfl
  | cons t rest ih =>
    intro table h
    have ht : hasKey table t.key = true := h t (List.mem_cons_self t rest)
    simp only [insertRows, insertRow, ht, if_pos]
    rw [ih table fun u hu => h u (List.mem_cons_of_mem _ hu)]
    rfl

theorem insertRows_fresh :
    ∀ (ts table : List Transfer), ∀ u ∈ (insertRows table ts).1, u ∉ table →
      hasKey table u.key = false := by
  intro ts
  induction ts with
  | nil => intro table u hu hnot; exact absurd (by simpa [insertRows] using hu) hnot
  | cons t rest ih =>
    intro table u hu hnot
    simp only [insertRows] at hu
    by_cases hmem : u ∈ (insertRow table t).1
    · unfold insertRow at hmem
      split at hmem
      · exact absurd hmem hnot
      · rcases List.mem_append.mp hmem with h' | h'
        · exact absurd h' hnot
        · have : u = t := List.mem_singleton.mp h'
          subst this
          simpa using (by assumption : ¬hasKey table u.key = true)
    · have hfresh := ih _ _ hu hmem
      unfold insertRow at hfresh
      split at hfresh
      · exact hfresh
      · rw [hasKey_append] at hfresh
        exact (Bool.or_eq_false_iff.mp hfresh).1

end TransferRepository

/-- C8.  `insert_batch` over a transfer batch: every pre-existing row
survives, every result row comes from the table or the batch, a row that
was actually added carries a key absent from the original table, every
batch key is present afterwards, the returned count is the number of rows
actually added, replaying the same batch changes nothing and returns 0,
and the balance ledger is untouched by the insertion worker's batch
processing. -/
theorem insert_batch_spec (table ts : List Transfer) :
    (TransferRepository.insert_batch table ts).1.length =
        table.length + (TransferRepository.insert_batch table ts).2 ∧
    (∀ u ∈ table, u ∈ (TransferRepository.insert_batch table ts).1) ∧
    (∀ u ∈ (TransferRepository.insert_batch table ts).1, u ∈ table ∨ u ∈ ts) ∧
    (∀ u ∈ (TransferRepository.insert_batch table ts).1, u ∉ table →
      TransferRepository.hasKey table u.key = false) ∧
    (∀ u ∈ ts, TransferRepository.hasKey (TransferRepository.insert_batch table ts).1 u.key = true) ∧
    TransferRepository.insert_batch (TransferRepository.insert_batch table ts).1 ts =
        ((TransferRepository.insert_batch table ts).1, 0) ∧
    (∀ (addr end_block : Nat) (st : Store),
      (InsertionWorker.process_batch addr st ts end_block).balances = st.balances) := by
  refine ⟨TransferRepository.insertRows_length ts table,
    TransferRepository.insertRows_subset ts table,
    TransferRepository.insertRows_mem ts table,
    fun u hu hnot => TransferRepository.insertRows_fresh ts table u hu hnot,
    TransferRepository.insertRows_keys_present ts table,
    ?_, fun _ _ _ => rfl⟩
  exact TransferRepository.insertRows_all_present ts _
    (TransferRepository.insertRows_keys_present ts table)

namespace TransferRepository

theorem deleteBlocks_table :
    ∀ (bs : List Nat) (table : List Transfer),
      (deleteBlocks table bs).1 = table.filter (fun t => !bs.contains t.block_number) := by
  intro bs
  induction bs with
  | nil => intro table; simp [deleteBlocks]
  | cons b rest ih =>
    intro table
    simp only [deleteBlocks, deleteBlock]
    rw [ih]
    rw [List.filter_filter]
    congr 1
    funext t
    by_cases hb : t.block_number = b <;> simp [hb]

theorem deleteBlocks_count :
    ∀ (bs : List Nat) (table : List Transfer),
      (deleteBlocks table bs).2 = table.length - (deleteBlocks table bs).1.length := by
  intro bs
  induction bs with
  | nil => intro table; simp [deleteBlocks]
  | cons b rest ih =>
    intro table
    simp only [deleteBlocks, deleteBlock]
    have h1 := List.length_filter_le (fun t => t.block_number != b) table
    have h2 := ih (table.filter (fun t => t.block_number != b))
    have h3 := List.length_filter_le (fun t => !(rest.contains t.block_number))
      (table.filter (fun t => t.block_number != b))
    rw [deleteBlocks_table] at h2 ⊢
    rw [h2]
    omega

theorem finalizeRow_block (f t0 : Nat) (t : Transfer) :
    (finalizeRow f t0 t).block_number = t.block_number := by
  unfold finalizeRow
  split <;> rfl

theorem finalizeRow_flag (f t0 : Nat) (t : Transfer)
    (h : f ≤ t.block_number) (h' : t.block_number ≤ t0) :
    (finalizeRow f t0 t).is_finalized = true := by
  unfold finalizeRow
  rw [if_pos ⟨h, h'⟩]

end TransferRepository

/-- C5.  `process_finality_batch`  — modelled as one state transition, i.e.
one committed transaction — (i) keeps every row whose block is not listed
for deletion, changing only its finality flag, (ii) produces only rows
originating in the old table (outside the deleted blocks) or in the
replacement list, (iii) leaves every row of the window finalized, (iv)
repopulates deleted blocks only from the replacements, and (v) returns the
deleted count, the actually-inserted count (via the table sizes), and the
affected-row count of the finalize `UPDATE`. -/
theorem process_finality_batch_spec (table : List Transfer) (bs : List Nat)
    (reps : List Transfer) (a b : Nat) :
    (∀ t ∈ table, ¬ bs.contains t.block_number = true →
      TransferRepository.finalizeRow a b t ∈
        (TransferRepository.process_finality_batch table bs reps a b).1) ∧
    (∀ u ∈ (TransferRepository.process_finality_batch table bs reps a b).1,
      (∃ t ∈ table, ¬ bs.contains t.block_number = true ∧
          u = TransferRepository.finalizeRow a b t) ∨
        ∃ t ∈ reps, u = TransferRepository.finalizeRow a b t) ∧
    (∀ u ∈ (TransferRepository.process_finality_batch table bs reps a b).1,
      a ≤ u.block_number → u.block_number ≤ b → u.is_finalized = true) ∧
    (∀ u ∈ (TransferRepository.process_finality_batch table bs reps a b).1,
      bs.contains u.block_number = true →
        ∃ t ∈ reps, u = TransferRepository.finalizeRow a b t) ∧
    (TransferRepository.process_finality_batch table bs reps a b).2.1 =
      (table.filter (fun t => bs.contains t.block_number)).length ∧
    (TransferRepository.process_finality_batch table bs reps a b).1.length =
      (table.filter (fun t => !bs.contains t.block_number)).length +
        (TransferRepository.process_finality_batch table bs reps a b).2.2.1 ∧
    (TransferRepository.process_finality_batch table bs reps a b).2.2.2 =
      ((TransferRepository.process_finality_batch table bs reps a b).1.filter
        (TransferRepository.inWindow a b)).length := by
  have hdel := TransferRepository.deleteBlocks_table bs table
  have hcnt := TransferRepository.deleteBlocks_count bs table
  have hcompl := List.length_eq_length_filter_add
    (l := table) (fun t => bs.contains t.block_number)
  refine ⟨?_, ?_, ?_, ?_, ?_, ?_, ?_⟩
  · intro t ht hb
    simp only [TransferRepository.process_finality_batch]
    apply List.mem_map_of_mem
    apply TransferRepository.insertRows_subset
    rw [hdel, List.mem_filter]
    exact ⟨ht, by simpa using hb⟩
  · intro u hu
    simp only [TransferRepository.process_finality_batch] at hu
    rcases List.mem_map.mp hu with ⟨v, hv, rfl⟩
    rcases TransferRepository.insertRows_mem reps _ v hv with h | h
    · rw [hdel] at h
      rcases List.mem_filter.mp h with ⟨hmem, hp⟩
      exact Or.inl ⟨v, hmem, by simpa using hp, rfl⟩
    · exact Or.inr ⟨v, h, rfl⟩
  · intro u hu hla hlb
    simp only [TransferRepository.process_finality_batch] at hu
    rcases List.mem_map.mp hu with ⟨v, _, rfl⟩
    rw [TransferRepository.finalizeRow_block] at hla hlb
    exact TransferRepository.finalizeRow_flag a b v hla hlb
  · intro u hu hb
    simp only [TransferRepository.process_finality_batch] at hu
    rcases List.mem_map.mp hu with ⟨v, hv, rfl⟩
    rcases TransferRepository.insertRows_mem reps _ v hv with h | h
    · rw [hdel] at h
      rcases List.mem_filter.mp h with ⟨_, hp⟩
      rw [TransferRepository.finalizeRow_block] at hb
      rw [hb] at hp
      simp at hp
    · exact ⟨v, h, rfl⟩
  · simp only [TransferRepository.process_finality_batch]
    rw [hcnt, hdel]
    omega
  · simp only [TransferRepository.process_finality_batch, List.length_map]
    rw [TransferRepository.insertRows_length reps, hdel]
  · simp only [TransferRepository.process_finality_batch]
    rw [List.filter_map]
    rw [List.length_map]
    apply congrArg
    apply List.filter_congr
    intro t _
    simp [Function.comp, TransferRepository.inWindow, TransferRepository.finalizeRow_block]

namespace BalanceRepository

theorem contains_false_iff (l : List Nat) (a : Nat) : l.contains a = false ↔ a ∉ l := by
  rw [← Bool.not_eq_true]
  exact not_congr List.elem_iff

theorem applyAddrs_not_mem (step : Nat → Option String → Option (Option String)) :
    ∀ (keys : List Nat) (b b2 : Balances) (a : Nat), a ∉ keys →
      applyAddrs step keys b = some b2 → b2 a = b a := by
  intro keys
  induction keys with
  | nil =>
    intro b b2 a _ h
    cases h
    rfl
  | cons c rest ih =>
    intro b b2 a ha h
    simp only [applyAddrs] at h
    cases hc : step c (b c) with
    | none => rw [hc] at h; cases h
    | some v =>
      rw [hc] at h
      have hne : a ≠ c := fun hEq => ha (hEq ▸ List.mem_cons_self c rest)
      have := ih (setBalance b c v) b2 a (fun hr => ha (List.mem_cons_of_mem _ hr)) h
      rw [this, setBalance, if_neg hne]

theorem applyAddrs_mem (step : Nat → Option String → Option (Option String)) :
    ∀ (keys : List Nat) (b b2 : Balances) (a : Nat), keys.Nodup → a ∈ keys →
      applyAddrs step keys b = some b2 →
        ∃ v, step a (b a) = some v ∧ b2 a = v := by
  intro keys
  induction keys with
  | nil => intro b b2 a _ ha; cases ha
  | cons c rest ih =>
    intro b b2 a hnd ha h
    simp only [applyAddrs] at h
    cases hc : step c (b c) with
    | none => rw [hc] at h; cases h
    | some v =>
      rw [hc] at h
      rcases List.mem_cons.mp ha with rfl | hmem
      · refine ⟨v, hc, ?_⟩
        have hnot : a ∉ rest := (List.nodup_cons.mp hnd).1
        have := applyAddrs_not_mem step rest (setBalance b a v) b2 a hnot h
        rw [this, setBalance, if_pos rfl]
      · have hne : a ≠ c := by
          intro hEq
          exact (List.nodup_cons.mp hnd).1 (hEq ▸ hmem)
        have hcell : setBalance b c v a = b a := by rw [setBalance, if_neg hne]
        rcases ih (setBalance b c v) b2 a (List.nodup_cons.mp hnd).2 hmem h with ⟨w, hw, hb2⟩
        exact ⟨w, hcell ▸ hw, hb2⟩

theorem foldl_wrappingAdd_mod (ts : List Transfer) :
    ∀ s : Nat, ts.foldl (fun s t => wrappingAdd s t.value) s % u256size =
      (s + (ts.map (·.value)).sum) % u256size := by
  induction ts with
  | nil => intro s; simp
  | cons t rest ih =>
    intro s
    simp only [List.foldl_cons, List.map_cons, List.sum_cons]
    rw [ih (wrappingAdd s t.value)]
    rw [wrappingAdd, Nat.mod_add_mod]
    ring_nf

theorem foldl_wrappingAdd_lt (ts : List Transfer) :
    ∀ s : Nat, s < u256size → ts.foldl (fun s t => wrappingAdd s t.value) s < u256size := by
  induction ts with
  | nil => intro s hs; simpa using hs
  | cons t rest ih =>
    intro s _
    simp only [List.foldl_cons]
    exact ih _ (Nat.mod_lt _ (by simp [u256size]))

theorem creditOf_eq_sum (ts : List Transfer) (a : Nat) :
    creditOf ts a =
      ((ts.filter (fun t => t.to_address == a)).map (·.value)).sum % u256size := by
  unfold creditOf
  have hlt := foldl_wrappingAdd_lt (ts.filter (fun t => t.to_address == a)) 0
    (by simp [u256size])
  rw [← Nat.mod_eq_of_lt hlt, foldl_wrappingAdd_mod, Nat.zero_add]

theorem debitOf_eq_sum (ts : List Transfer) (a : Nat) :
    debitOf ts a =
      ((ts.filter (fun t => t.from_address == a)).map (·.value)).sum % u256size := by
  unfold debitOf
  have hlt := foldl_wrappingAdd_lt (ts.filter (fun t => t.from_address == a)) 0
    (by simp [u256size])
  rw [← Nat.mod_eq_of_lt hlt, foldl_wrappingAdd_mod, Nat.zero_add]

end BalanceRepository

/-- C1 (counterexample).  An address that only sends in the batch and whose
stored balance (5) is smaller than its debit (10) is updated with
`wrapping_sub`: the row is overwritten with `2^256 - 5` instead of being
deleted as the saturating-subtraction reading predicts. -/
theorem apply_transfers_wrapping_counterexample :
    (BalanceRepository.apply_transfers [⟨9, 0, 0, 1, 2, 10, 5, 77, true⟩]
        (setBalance (fun _ => none) 1 (some (BalanceRepository.pad_balance 5)))).map
      (fun b => b 1) = some (some (BalanceRepository.pad_balance (u256size - 5))) ∧
    (some (some (BalanceRepository.pad_balance (u256size - 5))) :
        Option (Option String)) ≠ some none := by
  constructor
  · decide
  · intro h
    cases h

/-- C1 (amended).  Per affected address, `apply_transfers` behaves as
follows on a successful commit.  An address credited in the batch gets
`new = (current +w credit) -sat debit` (wrapping addition, saturating
subtraction), upserted when positive and deleted otherwise.  An address
that only sends keeps an absent row absent, and a present row is updated
with *wrapping* subtraction `new = current -w debit` (equal to the
saturating result only when `debit ≤ current`), upserted when positive and
deleted otherwise.  Unaffected addresses keep their rows, and the credit
and debit of an address are the sums of the finalized incoming resp.
outgoing `value`s, reduced modulo `2 ^ 256`. -/
theorem apply_transfers_per_address (ts : List Transfer) (b b2 : Balances) (a : Nat)
    (h : BalanceRepository.apply_transfers ts b = some b2) :
    let fin := ts.filter (·.is_finalized)
    BalanceRepository.creditOf fin a =
      ((fin.filter (fun t => t.to_address == a)).map (·.value)).sum % u256size ∧
    BalanceRepository.debitOf fin a =
      ((fin.filter (fun t => t.from_address == a)).map (·.value)).sum % u256size ∧
    (a ∈ BalanceRepository.creditKeys fin →
      ∃ cur, BalanceRepository.parseCell (b a) = some cur ∧
        b2 a = (if 0 < wrappingAdd cur (BalanceRepository.creditOf fin a) -
                    BalanceRepository.debitOf fin a then
                  some (BalanceRepository.pad_balance
                    (wrappingAdd cur (BalanceRepository.creditOf fin a) -
                      BalanceRepository.debitOf fin a))
                else none)) ∧
    (a ∉ BalanceRepository.creditKeys fin → a ∈ BalanceRepository.debitKeys fin →
      (b a = none → b2 a = none) ∧
      (∀ p, b a = some p → ∃ cur, BalanceRepository.parse_padded p = some cur ∧
        b2 a = (if 0 < wrappingSub cur (BalanceRepository.debitOf fin a) then
                  some (BalanceRepository.pad_balance
                    (wrappingSub cur (BalanceRepository.debitOf fin a)))
                else none))) ∧
    (a ∉ BalanceRepository.creditKeys fin → a ∉ BalanceRepository.debitKeys fin →
      b2 a = b a) := by
  intro fin
  by_cases hts : ts.isEmpty
  · have : ts = [] := List.isEmpty_iff.mp hts
    subst this
    simp only [BalanceRepository.apply_transfers, List.isEmpty_nil, if_pos,
      Option.some.injEq] at h
    subst h
    refine ⟨BalanceRepository.creditOf_eq_sum fin a, BalanceRepository.debitOf_eq_sum fin a,
      ?_, ?_, fun _ _ => rfl⟩
    · intro ha
      exact absurd ha (by simp [fin, BalanceRepository.creditKeys])
    · intro _ hd
      exact absurd hd (by simp [fin, BalanceRepository.debitKeys])
  · simp only [BalanceRepository.apply_transfers, hts, Bool.false_eq_true, if_neg,
      not_false_iff] at h
    rcases Option.bind_eq_some.mp h with ⟨b1, h1, h2⟩
    have nd1 : (BalanceRepository.creditKeys fin).Nodup := List.nodup_dedup _
    have nd2 : ((BalanceRepository.debitKeys fin).filter
        (fun a => !(BalanceRepository.creditKeys fin).contains a)).Nodup :=
      (List.nodup_dedup _).filter _
    refine ⟨BalanceRepository.creditOf_eq_sum fin a, BalanceRepository.debitOf_eq_sum fin a,
      ?_, ?_, ?_⟩
    · intro ha
      have hnot2 : a ∉ (BalanceRepository.debitKeys fin).filter
          (fun a => !(BalanceRepository.creditKeys fin).contains a) := by
        intro hmem
        rcases List.mem_filter.mp hmem with ⟨_, hcon⟩
        rw [Bool.not_eq_true'] at hcon
        exact (BalanceRepository.contains_false_iff _ _).mp hcon ha
      have hb2 := BalanceRepository.applyAddrs_not_mem _ _ b1 b2 a hnot2 h2
      rcases BalanceRepository.applyAddrs_mem _ _ b b1 a nd1 ha h1 with ⟨v, hv, hb1⟩
      simp only [BalanceRepository.applyCellCredited] at hv
      rcases Option.map_eq_some'.mp hv with ⟨cur, hcur, hvv⟩
      exact ⟨cur, hcur, by rw [hb2, hb1, ← hvv]⟩
    · intro ha hd
      have hmem2 : a ∈ (BalanceRepository.debitKeys fin).filter
          (fun a => !(BalanceRepository.creditKeys fin).contains a) := by
        rw [List.mem_filter]
        refine ⟨hd, ?_⟩
        rw [Bool.not_eq_true']
        exact (BalanceRepository.contains_false_iff _ _).mpr ha
      have hb1 := BalanceRepository.applyAddrs_not_mem _ _ b b1 a ha h1
      rcases BalanceRepository.applyAddrs_mem _ _ b1 b2 a nd2 hmem2 h2 with ⟨v, hv, hb2⟩
      rw [hb1] at hv
      constructor
      · intro hnone
        rw [hnone] at hv
        simp only [BalanceRepository.applyCellDebitOnly, Option.some.injEq] at hv
        rw [hb2, ← hv]
      · intro p hp
        rw [hp] at hv
        simp only [BalanceRepository.applyCellDebitOnly] at hv
        rcases Option.map_eq_some'.mp hv with ⟨cur, hcur, hvv⟩
        exact ⟨cur, hcur, by rw [hb2, ← hvv]⟩
    · intro ha hd
      have hnot2 : a ∉ (BalanceRepository.debitKeys fin).filter
          (fun a => !(BalanceRepository.creditKeys fin).contains a) := by
        intro hmem
        exact hd (List.mem_filter.mp hmem).1
      have hb1 := BalanceRepository.applyAddrs_not_mem _ _ b b1 a ha h1
      have hb2 := BalanceRepository.applyAddrs_not_mem _ _ b1 b2 a hnot2 h2
      rw [hb2, hb1]

/-- Witness for C1: a single finalized transfer `1 → 2` of value 10 applied
to an empty ledger credits address 2 with the padded 10 and leaves the
absent row of the sender absent. -/
theorem apply_transfers_per_address_witness :
    BalanceRepository.apply_transfers [⟨9, 0, 0, 1, 2, 10, 5, 77, true⟩] (fun _ => none) =
      some (setBalance (setBalance (fun _ => none) 2
        (some (BalanceRepository.pad_balance 10))) 1 none) ∧
    (let fin := [Transfer.mk 9 0 0 1 2 10 5 77 true].filter (·.is_finalized)
     BalanceRepository.creditOf fin 2 =
       ((fin.filter (fun t => t.to_address == 2)).map (·.value)).sum % u256size ∧
     BalanceRepository.debitOf fin 2 =
       ((fin.filter (fun t => t.from_address == 2)).map (·.value)).sum % u256size ∧
     (2 ∈ BalanceRepository.creditKeys fin →
       ∃ cur, BalanceRepository.parseCell ((fun _ => (none : Option String)) 2) = some cur ∧
         (setBalance (setBalance (fun _ => none) 2
             (some (BalanceRepository.pad_balance 10))) 1 none) 2 =
           (if 0 < wrappingAdd cur (BalanceRepository.creditOf fin 2) -
               BalanceRepository.debitOf fin 2 then
              some (BalanceRepository.pad_balance
                (wrappingAdd cur (BalanceRepository.creditOf fin 2) -
                  BalanceRepository.debitOf fin 2))
            else none)) ∧
     (2 ∉ BalanceRepository.creditKeys fin → 2 ∈ BalanceRepository.debitKeys fin →
       ((fun _ => (none : Option String)) 2 = none →
         (setBalance (setBalance (fun _ => none) 2
             (some (BalanceRepository.pad_balance 10))) 1 none) 2 = none) ∧
       (∀ p, (fun _ => (none : Option String)) 2 = some p →
         ∃ cur, BalanceRepository.parse_padded p = some cur ∧
           (setBalance (setBalance (fun _ => none) 2
               (some (BalanceRepository.pad_balance 10))) 1 none) 2 =
             (if 0 < wrappingSub cur (BalanceRepository.debitOf fin 2) then
                some (BalanceRepository.pad_balance
                  (wrappingSub cur (BalanceRepository.debitOf fin 2)))
              else none))) ∧
     (2 ∉ BalanceRepository.creditKeys fin → 2 ∉ BalanceRepository.debitKeys fin →
       (setBalance (setBalance (fun _ => none) 2
           (some (BalanceRepository.pad_balance 10))) 1 none) 2 =
         (fun _ => (none : Option String)) 2)) :=
  ⟨rfl,
   apply_transfers_per_address [⟨9, 0, 0, 1, 2, 10, 5, 77, true⟩] (fun _ => none)
     (setBalance (setBalance (fun _ => none) 2
       (some (BalanceRepository.pad_balance 10))) 1 none) 2 rfl⟩

/-- C2.  A finality tick re-applies the balance delta of every chain
transfer of its window.  With one stored unfinalized transfer `1 → 2` of
value 100 at block 5 and an unchanged chain, a single successful tick
leaves address 2 with balance 100; a tick that committed its chunks but
failed before the watermark write, followed by the retrying tick, leaves
address 2 with balance 200 — the delta of the same finalized transfer is
applied twice, so the retry is not idempotent on the ledger. -/
theorem finality_retry_double_applies_balances :
    ((Scanner.update_finality 0 1000 false ⟨5, [⟨9, 0, 0, 1, 2, 100, 5, 77, false⟩]⟩
        ⟨[⟨9, 0, 0, 1, 2, 100, 5, 77, false⟩], fun _ => none, [⟨0, 1, 10, some 0⟩]⟩).bind
      fun s => s.balances 2) = some (BalanceRepository.pad_balance 100) ∧
    ((Scanner.update_finality_chunks 0 1000 ⟨5, [⟨9, 0, 0, 1, 2, 100, 5, 77, false⟩]⟩
        ⟨[⟨9, 0, 0, 1, 2, 100, 5, 77, false⟩], fun _ => none, [⟨0, 1, 10, some 0⟩]⟩).bind
      fun sp =>
        (Scanner.update_finality 0 1000 false ⟨5, [⟨9, 0, 0, 1, 2, 100, 5, 77, false⟩]⟩
            sp).bind
          fun s => s.balances 2) = some (BalanceRepository.pad_balance 200) ∧
    BalanceRepository.pad_balance 100 ≠ BalanceRepository.pad_balance 200 := by
  refine ⟨by decide, by decide, by decide⟩

/-- C3 (counterexample).  On an initial tick with `last_processed = 150`,
`last_processed_finalized = 100` and `chain_finalized = 300`, the watermark
write stores `chain_finalized = 300`, so after the commit
`last_processed_finalized_block = 300 > 150 = last_processed_block`,
violating the claimed invariant. -/
theorem initial_finality_watermark_counterexample :
    ((Scanner.update_finality 0 1000 true ⟨300, []⟩
        ⟨[], fun _ => none, [⟨0, 100, 150, some 100⟩]⟩).map
      fun s => (TokenRepository.get_last_processed_finalized_block s.tokens 0,
                TokenRepository.get_last_processed_block s.tokens 0)) =
      some (Except.ok (some 300), some 150) ∧ ¬ (300 ≤ 150) := by
  refine ⟨by decide, by decide⟩

namespace Scanner

theorem processChunk_tokens (chain : Chain) (cfrom cto : Nat) (st st' : Store)
    (h : processChunk chain cfrom cto st = some st') : st'.tokens = st.tokens := by
  simp only [processChunk] at h
  split at h
  · cases h
  · split at h
    · cases h
      rfl
    · rcases Option.map_eq_some'.mp h with ⟨b2, _, rfl⟩
      rfl

theorem chunkWalk_tokens (bs : Nat) (chain : Chain) (target : Nat) :
    ∀ (fuel cur : Nat) (st st' : Store),
      chunkWalk bs chain target fuel cur st = some st' → st'.tokens = st.tokens := by
  intro fuel
  induction fuel with
  | zero => intro cur st st' h; cases h
  | succ fuel ih =>
    intro cur st st' h
    simp only [chunkWalk] at h
    split at h
    · cases h
      rfl
    · rcases Option.bind_eq_some.mp h with ⟨mid, hmid, hrest⟩
      rw [ih _ _ _ hrest, processChunk_tokens _ _ _ _ _ hmid]

end Scanner

namespace TokenRepository

theorem findToken_update_lpfb (tokens : List TokenRow) (a v : Nat) :
    findToken (update_last_processed_finalized_block tokens a v) a =
      (findToken tokens a).map fun r =>
        ⟨r.address, r.deployment_block, r.last_processed_block, some v⟩ := by
  induction tokens with
  | nil => rfl
  | cons r rest ih =>
    simp only [update_last_processed_finalized_block] at ih ⊢
    rw [List.map_cons]
    by_cases hr : (r.address == a) = true
    · rw [if_pos hr]
      simp only [findToken]
      dsimp only
      rw [if_pos hr, if_pos hr]
      rfl
    · rw [if_neg hr]
      simp only [findToken]
      rw [if_neg hr, if_neg hr]
      exact ih

theorem get_lpb_update_lpfb (tokens : List TokenRow) (a v : Nat) :
    get_last_processed_block (update_last_processed_finalized_block tokens a v) a =
      get_last_processed_block tokens a := by
  simp only [get_last_processed_block, findToken_update_lpfb, Option.map_map]
  rfl

theorem get_lpfb_update_lpfb (tokens : List TokenRow) (a v : Nat) (r : TokenRow)
    (hrow : findToken tokens a = some r) :
    get_last_processed_finalized_block (update_last_processed_finalized_block tokens a v) a =
      .ok (some v) := by
  simp only [get_last_processed_finalized_block, findToken_update_lpfb, hrow, Option.map_some']

end TokenRepository

/-- C3 (amended).  A runtime (non-initial) finality tick never touches
`last_processed_block`, and either does nothing or advances
`last_processed_finalized_block` strictly, to
`min(chain_finalized, last_processed)`, which never exceeds
`last_processed_block`.  (The initial tick instead writes
`chain_finalized`, which can exceed `last_processed` — see the
counterexample — and the freshly created token row has a NULL finalized
watermark, below `deployment_block`.) -/
theorem runtime_finality_watermark_monotone (addr bs : Nat) (ch : Chain) (st st' : Store)
    (h : Scanner.update_finality addr bs false ch st = some st') :
    TokenRepository.get_last_processed_block st'.tokens addr =
      TokenRepository.get_last_processed_block st.tokens addr ∧
    (st' = st ∨
      ∃ lfOpt, TokenRepository.get_last_processed_finalized_block st.tokens addr = .ok lfOpt ∧
        lfOpt.getD 0 < min ch.finalizedBlock
            ((TokenRepository.get_last_processed_block st.tokens addr).getD 0) ∧
        TokenRepository.get_last_processed_finalized_block st'.tokens addr =
          .ok (some (min ch.finalizedBlock
            ((TokenRepository.get_last_processed_block st.tokens addr).getD 0))) ∧
        min ch.finalizedBlock ((TokenRepository.get_last_processed_block st.tokens addr).getD 0) ≤
          (TokenRepository.get_last_processed_block st.tokens addr).getD 0) := by
  simp only [Scanner.update_finality] at h
  split at h
  · cases h
  case h_2 lfOpt heq =>
    split at h
    · cases h
      exact ⟨rfl, Or.inl rfl⟩
    case isFalse htgt =>
      rcases Option.map_eq_some'.mp h with ⟨st2, hwalk, rfl⟩
      have htok : st2.tokens = st.tokens := Scanner.chunkWalk_tokens _ _ _ _ _ _ _ hwalk
      have hlp : 0 < (TokenRepository.get_last_processed_block st.tokens addr).getD 0 := by
        omega
      have hrow : ∃ r, TokenRepository.findToken st.tokens addr = some r := by
        cases hf : TokenRepository.findToken st.tokens addr with
        | none =>
          exfalso
          rw [TokenRepository.get_last_processed_block, hf] at hlp
          simp at hlp
        | some r => exact ⟨r, rfl⟩
      rcases hrow with ⟨r, hr⟩
      constructor
      · show TokenRepository.get_last_processed_block
            (TokenRepository.update_last_processed_finalized_block st2.tokens addr _) addr = _
        rw [htok, TokenRepository.get_lpb_update_lpfb]
      · refine Or.inr ⟨lfOpt, heq, by omega, ?_, Nat.min_le_right _ _⟩
        show TokenRepository.get_last_processed_finalized_block
            (TokenRepository.update_last_processed_finalized_block st2.tokens addr _) addr = _
        rw [htok]
        exact TokenRepository.get_lpfb_update_lpfb st.tokens addr _ r hr

/-- Witness for C3: a runtime tick over an empty chain window advances the
finalized watermark from 3 to `min(10, 50) = 10` and leaves
`last_processed_block = 50` unchanged. -/
theorem runtime_finality_watermark_monotone_witness :
    Scanner.update_finality 0 1000 false ⟨10, []⟩
        ⟨[], fun _ => none, [⟨0, 1, 50, some 3⟩]⟩ =
      some ⟨[], fun _ => none, [⟨0, 1, 50, some 10⟩]⟩ ∧
    (TokenRepository.get_last_processed_block
        (Store.mk [] (fun _ => none) [⟨0, 1, 50, some 10⟩]).tokens 0 =
      TokenRepository.get_last_processed_block
        (Store.mk [] (fun _ => none) [⟨0, 1, 50, some 3⟩]).tokens 0 ∧
     ((Store.mk [] (fun _ => none) [⟨0, 1, 50, some 10⟩]) =
          (Store.mk [] (fun _ => none) [⟨0, 1, 50, some 3⟩]) ∨
       ∃ lfOpt,
         TokenRepository.get_last_processed_finalized_block
             (Store.mk [] (fun _ => none) [⟨0, 1, 50, some 3⟩]).tokens 0 = .ok lfOpt ∧
         lfOpt.getD 0 < min (Chain.mk 10 []).finalizedBlock
             ((TokenRepository.get_last_processed_block
               (Store.mk [] (fun _ => none) [⟨0, 1, 50, some 3⟩]).tokens 0).getD 0) ∧
         TokenRepository.get_last_processed_finalized_block
             (Store.mk [] (fun _ => none) [⟨0, 1, 50, some 10⟩]).tokens 0 =
           .ok (some (min (Chain.mk 10 []).finalizedBlock
             ((TokenRepository.get_last_processed_block
               (Store.mk [] (fun _ => none) [⟨0, 1, 50, some 3⟩]).tokens 0).getD 0))) ∧
         min (Chain.mk 10 []).finalizedBlock
             ((TokenRepository.get_last_processed_block
               (Store.mk [] (fun _ => none) [⟨0, 1, 50, some 3⟩]).tokens 0).getD 0) ≤
           (TokenRepository.get_last_processed_block
             (Store.mk [] (fun _ => none) [⟨0, 1, 50, some 3⟩]).tokens 0).getD 0)) :=
  ⟨rfl,
   runtime_finality_watermark_monotone 0 1000 ⟨10, []⟩
     ⟨[], fun _ => none, [⟨0, 1, 50, some 3⟩]⟩
     ⟨[], fun _ => none, [⟨0, 1, 50, some 10⟩]⟩ rfl⟩

/-- C10 (counterexample).  Inserting a fresh token whose value carries
`Some(deployment_block)` in both watermark fields creates a row whose
`last_processed_finalized_block` column is NULL; reading it back yields the
rusqlite column-decode error, not `None`. -/
theorem token_insert_null_counterexample :
    TokenRepository.insert [] ⟨0, 100, some 100, some 100⟩ = [⟨0, 100, 100, none⟩] ∧
    TokenRepository.get_last_processed_finalized_block
        (TokenRepository.insert [] ⟨0, 100, some 100, some 100⟩) 0 = .error () ∧
    (Except.error () : Except Unit (Option Nat)) ≠ .ok none := by
  refine ⟨by decide, by decide, ?_⟩
  intro hcontra
  cases hcontra

/-- C10 (amended).  `TokenRepository::insert` never writes the
`last_processed_finalized_block` column: the row created for a fresh
address stores NULL there even when the passed `Token` carries a value.
Immediately afterwards `get_last_processed_finalized_block` returns the
column-decode error (`u64` cannot decode NULL) rather than `None`, and the
first finality tick fails with that error instead of proceeding with
`last_finalized = 0`. -/
theorem token_insert_finalized_column_null (tokens : List TokenRow) (t : Token)
    (hfresh : ∀ r ∈ tokens, r.address ≠ t.address) :
    (∃ r ∈ TokenRepository.insert tokens t,
       r.address = t.address ∧ r.last_processed_finalized_block = none) ∧
    TokenRepository.get_last_processed_finalized_block
        (TokenRepository.insert tokens t) t.address = .error () ∧
    (∀ (bs : Nat) (is_init : Bool) (ch : Chain) (trs : List Transfer) (b : Balances),
      Scanner.update_finality t.address bs is_init ch
        ⟨trs, b, TokenRepository.insert tokens t⟩ = none) := by
  have hany : tokens.any (fun r => r.address == t.address) = false := by
    rw [List.any_eq_false]
    intro r hr
    simpa using hfresh r hr
  have hins : TokenRepository.insert tokens t =
      tokens ++ [⟨t.address, t.deployment_block,
        t.last_processed_block.getD t.deployment_block, none⟩] := by
    simp only [TokenRepository.insert, hany, Bool.false_eq_true, if_neg, not_false_iff]
  have hfind : TokenRepository.findToken (TokenRepository.insert tokens t) t.address =
      some ⟨t.address, t.deployment_block,
        t.last_processed_block.getD t.deployment_block, none⟩ := by
    rw [hins]
    clear hins hany
    induction tokens with
    | nil => simp [TokenRepository.findToken]
    | cons r rest ih =>
      have hr : (r.address == t.address) = false := by
        simpa using hfresh r (List.mem_cons_self r rest)
      simp only [List.cons_append, TokenRepository.findToken, hr]
      exact ih fun x hx => hfresh x (List.mem_cons_of_mem _ hx)
  have hget : TokenRepository.get_last_processed_finalized_block
      (TokenRepository.insert tokens t) t.address = .error () := by
    rw [TokenRepository.get_last_processed_finalized_block, hfind]
  refine ⟨⟨_, by rw [hins]; exact List.mem_append_right _ (List.mem_singleton_self _),
    rfl, rfl⟩, hget, ?_⟩
  intro bs is_init ch trs b
  simp only [Scanner.update_finality, hget]

/-- Witness for C10: inserting the token of the counterexample into the
empty table. -/
theorem token_insert_finalized_column_null_witness :
    (∀ r ∈ ([] : List TokenRow), r.address ≠ (0 : Nat)) ∧
    ((∃ r ∈ TokenRepository.insert [] ⟨0, 100, some 100, some 100⟩,
       r.address = 0 ∧ r.last_processed_finalized_block = none) ∧
     TokenRepository.get_last_processed_finalized_block
        (TokenRepository.insert [] ⟨0, 100, some 100, some 100⟩) 0 = .error () ∧
     (∀ (bs : Nat) (is_init : Bool) (ch : Chain) (trs : List Transfer) (b : Balances),
       Scanner.update_finality 0 bs is_init ch
         ⟨trs, b, TokenRepository.insert [] ⟨0, 100, some 100, some 100⟩⟩ = none)) :=
  ⟨fun r hr => absurd hr (List.not_mem_nil r),
   token_insert_finalized_column_null [] ⟨0, 100, some 100, some 100⟩
     (fun r hr => absurd hr (List.not_mem_nil r))⟩

namespace RpcClient

theorem retry_call_pos (op : Nat → Bool) (pool rl att c : Nat) (h : op att = true) :
    retry_call op pool rl att c = (true, c, att + 1) := by
  cases rl <;> simp [retry_call, h]

theorem retry_call_neg_zero (op : Nat → Bool) (pool att c : Nat) (h : op att = false) :
    retry_call op pool 0 att c = (false, (c + 1) % pool, att + 1) := by
  simp [retry_call, h]

theorem retry_call_neg_succ (op : Nat → Bool) (pool rl att c : Nat) (h : op att = false) :
    retry_call op pool (rl + 1) att c = retry_call op pool rl (att + 1) ((c + 1) % pool) := by
  simp [retry_call, h]

theorem retry_call_characterize (op : Nat → Bool) (pool : Nat) (hp : 0 < pool) :
    ∀ (rl att c : Nat), c < pool →
      ((retry_call op pool rl att c).1 = false ∧
        (retry_call op pool rl att c).2.2 = att + rl + 1 ∧
        (∀ k, att ≤ k → k ≤ att + rl → op k = false) ∧
        (retry_call op pool rl att c).2.1 = (c + (rl + 1)) % pool) ∨
      ((retry_call op pool rl att c).1 = true ∧
        att + 1 ≤ (retry_call op pool rl att c).2.2 ∧
        (retry_call op pool rl att c).2.2 ≤ att + rl + 1 ∧
        op ((retry_call op pool rl att c).2.2 - 1) = true ∧
        (∀ k, att ≤ k → k < (retry_call op pool rl att c).2.2 - 1 → op k = false) ∧
        (retry_call op pool rl att c).2.1 =
          (c + ((retry_call op pool rl att c).2.2 - 1 - att)) % pool) := by
  intro rl
  induction rl with
  | zero =>
    intro att c hc
    by_cases hop : op att = true
    · rw [retry_call_pos op pool 0 att c hop]
      dsimp only
      refine Or.inr ⟨rfl, by omega, by omega, by simpa using hop, ?_, ?_⟩
      · intro k hk hk'
        omega
      · simp [Nat.mod_eq_of_lt hc]
    · rw [retry_call_neg_zero op pool att c (by simpa using hop)]
      dsimp only
      refine Or.inl ⟨rfl, rfl, ?_, rfl⟩
      intro k hk hk'
      have hke : k = att := by omega
      rw [hke]
      simpa using hop
  | succ rl ih =>
    intro att c hc
    by_cases hop : op att = true
    · rw [retry_call_pos op pool (rl + 1) att c hop]
      dsimp only
      refine Or.inr ⟨rfl, by omega, by omega, by simpa using hop, ?_, ?_⟩
      · intro k hk hk'
        omega
      · simp [Nat.mod_eq_of_lt hc]
    · rw [retry_call_neg_succ op pool rl att c (by simpa using hop)]
      have hrec := ih (att + 1) ((c + 1) % pool) (Nat.mod_lt _ hp)
      rcases hrec with ⟨hf, hatt, hall, hcur⟩ | ⟨ht, h1, h2, hsucc, hmid, hcur⟩
      · refine Or.inl ⟨hf, by omega, ?_, ?_⟩
        · intro k hk hk'
          by_cases hke : k = att
          · rw [hke]; simpa using hop
          · exact hall k (by omega) (by omega)
        · rw [hcur, Nat.mod_add_mod]
          congr 1
          omega
      · refine Or.inr ⟨ht, by omega, by omega, hsucc, ?_, ?_⟩
        · intro k hk hk'
          by_cases hke : k = att
          · rw [hke]; simpa using hop
          · exact hmid k (by omega) hk'
        · rw [hcur, Nat.mod_add_mod]
          congr 1
          omega

theorem get_logs_internal_characterize (server : Nat → Nat → Nat → Attempt)
    (pool f t : Nat) (hp : 0 < pool) :
    ∀ (rl att c : Nat), c < pool →
      ((∃ logs, (get_logs_internal server pool f t rl att c).result = .ok logs ∧
          server f t ((get_logs_internal server pool f t rl att c).attempts - 1) =
            .success logs) ∧
        att + 1 ≤ (get_logs_internal server pool f t rl att c).attempts ∧
        (get_logs_internal server pool f t rl att c).attempts ≤ att + rl + 1 ∧
        (∀ k, att ≤ k → k < (get_logs_internal server pool f t rl att c).attempts - 1 →
          server f t k = .failed) ∧
        (get_logs_internal server pool f t rl att c).cursor =
          (c + ((get_logs_internal server pool f t rl att c).attempts - 1 - att)) % pool) ∨
      ((∃ s, (get_logs_internal server pool f t rl att c).result = .error (.maxResults s) ∧
          server f t ((get_logs_internal server pool f t rl att c).attempts - 1) =
            .capped s) ∧
        att + 1 ≤ (get_logs_internal server pool f t rl att c).attempts ∧
        (get_logs_internal server pool f t rl att c).attempts ≤ att + rl + 1 ∧
        (∀ k, att ≤ k → k < (get_logs_internal server pool f t rl att c).attempts - 1 →
          server f t k = .failed) ∧
        (get_logs_internal server pool f t rl att c).cursor =
          (c + ((get_logs_internal server pool f t rl att c).attempts - 1 - att)) % pool) ∨
      ((get_logs_internal server pool f t rl att c).result = .error .otherError ∧
        (get_logs_internal server pool f t rl att c).attempts = att + rl + 1 ∧
        (∀ k, att ≤ k → k ≤ att + rl → server f t k = .failed) ∧
        (get_logs_internal server pool f t rl att c).cursor = (c + (rl + 1)) % pool) := by
  have hsucc : ∀ (rl att c : Nat) (logs : List Nat), server f t att = .success logs →
      get_logs_internal server pool f t rl att c = ⟨.ok logs, c, att + 1⟩ := by
    intro rl att c logs h
    cases rl <;> simp [get_logs_internal, h]
  have hcap : ∀ (rl att c : Nat) (s : Option (Nat × Nat)), server f t att = .capped s →
      get_logs_internal server pool f t rl att c = ⟨.error (.maxResults s), c, att + 1⟩ := by
    intro rl att c s h
    cases rl <;> simp [get_logs_internal, h]
  have hfail0 : ∀ (att c : Nat), server f t att = .failed →
      get_logs_internal server pool f t 0 att c =
        ⟨.error .otherError, (c + 1) % pool, att + 1⟩ := by
    intro att c h
    simp [get_logs_internal, h]
  have hfailS : ∀ (rl att c : Nat), server f t att = .failed →
      get_logs_internal server pool f t (rl + 1) att c =
        get_logs_internal server pool f t rl (att + 1) ((c + 1) % pool) := by
    intro rl att c h
    simp [get_logs_internal, h]
  intro rl
  induction rl with
  | zero =>
    intro att c hc
    cases hsrv : server f t att with
    | success logs =>
      rw [hsucc 0 att c logs hsrv]
      dsimp only
      refine Or.inl ⟨⟨logs, rfl, by simpa using hsrv⟩, by omega, by omega, ?_, ?_⟩
      · intro k hk hk'
        omega
      · simp [Nat.mod_eq_of_lt hc]
    | capped s =>
      rw [hcap 0 att c s hsrv]
      dsimp only
      refine Or.inr (Or.inl ⟨⟨s, rfl, by simpa using hsrv⟩, by omega, by omega, ?_, ?_⟩)
      · intro k hk hk'
        omega
      · simp [Nat.mod_eq_of_lt hc]
    | failed =>
      rw [hfail0 att c hsrv]
      dsimp only
      refine Or.inr (Or.inr ⟨rfl, rfl, ?_, rfl⟩)
      intro k hk hk'
      have hke : k = att := by omega
      rw [hke]
      exact hsrv
  | succ rl ih =>
    intro att c hc
    cases hsrv : server f t att with
    | success logs =>
      rw [hsucc (rl + 1) att c logs hsrv]
      dsimp only
      refine Or.inl ⟨⟨logs, rfl, by simpa using hsrv⟩, by omega, by omega, ?_, ?_⟩
      · intro k hk hk'
        omega
      · simp [Nat.mod_eq_of_lt hc]
    | capped s =>
      rw [hcap (rl + 1) att c s hsrv]
      dsimp only
      refine Or.inr (Or.inl ⟨⟨s, rfl, by simpa using hsrv⟩, by omega, by omega, ?_, ?_⟩)
      · intro k hk hk'
        omega
      · simp [Nat.mod_eq_of_lt hc]
    | failed =>
      rw [hfailS rl att c hsrv]
      have hrec := ih (att + 1) ((c + 1) % pool) (Nat.mod_lt _ hp)
      rcases hrec with ⟨⟨logs, hres, hat⟩, h1, h2, hmid, hcur⟩ |
        ⟨⟨s, hres, hat⟩, h1, h2, hmid, hcur⟩ | ⟨hres, hat, hall, hcur⟩
      · refine Or.inl ⟨⟨logs, hres, hat⟩, by omega, by omega, ?_, ?_⟩
        · intro k hk hk'
          by_cases hke : k = att
          · rw [hke]; exact hsrv
          · exact hmid k (by omega) hk'
        · rw [hcur, Nat.mod_add_mod]
          congr 1
          omega
      · refine Or.inr (Or.inl ⟨⟨s, hres, hat⟩, by omega, by omega, ?_, ?_⟩)
        · intro k hk hk'
          by_cases hke : k = att
          · rw [hke]; exact hsrv
          · exact hmid k (by omega) hk'
        · rw [hcur, Nat.mod_add_mod]
          congr 1
          omega
      · refine Or.inr (Or.inr ⟨hres, by omega, ?_, ?_⟩)
        · intro k hk hk'
          by_cases hke : k = att
          · rw [hke]; exact hsrv
          · exact hall k (by omega) (by omega)
        · rw [hcur, Nat.mod_add_mod]
          congr 1
          omega

end RpcClient

/-- C7 (counterexample).  With every attempt failing, a retried call runs
six attempts (the initial attempt plus `max_retries = 5` backoff retries)
before surfacing failure — not five. -/
theorem retry_six_attempts_counterexample :
    (RpcClient.retry_call (fun _ => false) 3 RpcClient.max_retries 0 0).2.2 = 6 ∧
    ¬ ((RpcClient.retry_call (fun _ => false) 3 RpcClient.max_retries 0 0).2.2 ≤ 5) := by
  refine ⟨by decide, by decide⟩

/-- C7 (amended).  Every retried RPC operation performs at most six
attempts (one initial plus `max_retries = 5` retries).  For the generic
retried call (latest block, code-at-block): on overall failure all six
attempts ran, every one of them rotated the cursor by one modulo the pool
size, and the result cursor is `(c + 6) % pool`; on success only the
preceding failed attempts rotated, so the cursor is
`(c + attempts - 1) % pool`.  For the log fetch the same holds, and the
result-cap error surfaces directly after the attempt that produced it
without rotating for it and without being retried. -/
theorem retry_attempts_rotation_spec (op : Nat → Bool)
    (server : Nat → Nat → Nat → RpcClient.Attempt) (pool c f t : Nat)
    (hp : 0 < pool) (hc : c < pool) :
    ((RpcClient.retry_call op pool RpcClient.max_retries 0 c).2.2 ≤ 6 ∧
     ((RpcClient.retry_call op pool RpcClient.max_retries 0 c).1 = false →
       (RpcClient.retry_call op pool RpcClient.max_retries 0 c).2.2 = 6 ∧
       (∀ k < 6, op k = false) ∧
       (RpcClient.retry_call op pool RpcClient.max_retries 0 c).2.1 = (c + 6) % pool) ∧
     ((RpcClient.retry_call op pool RpcClient.max_retries 0 c).1 = true →
       op ((RpcClient.retry_call op pool RpcClient.max_retries 0 c).2.2 - 1) = true ∧
       (∀ k < (RpcClient.retry_call op pool RpcClient.max_retries 0 c).2.2 - 1,
         op k = false) ∧
       (RpcClient.retry_call op pool RpcClient.max_retries 0 c).2.1 =
         (c + ((RpcClient.retry_call op pool RpcClient.max_retries 0 c).2.2 - 1)) % pool)) ∧
    ((RpcClient.get_logs_internal server pool f t RpcClient.max_retries 0 c).attempts ≤ 6 ∧
     (∀ logs,
       (RpcClient.get_logs_internal server pool f t RpcClient.max_retries 0 c).result =
           .ok logs →
       server f t
           ((RpcClient.get_logs_internal server pool f t RpcClient.max_retries 0 c).attempts
             - 1) = .success logs ∧
       (∀ k < (RpcClient.get_logs_internal server pool f t RpcClient.max_retries 0
           c).attempts - 1, server f t k = .failed) ∧
       (RpcClient.get_logs_internal server pool f t RpcClient.max_retries 0 c).cursor =
         (c + ((RpcClient.get_logs_internal server pool f t RpcClient.max_retries 0
           c).attempts - 1)) % pool) ∧
     (∀ s,
       (RpcClient.get_logs_internal server pool f t RpcClient.max_retries 0 c).result =
           .error (.maxResults s) →
       server f t
           ((RpcClient.get_logs_internal server pool f t RpcClient.max_retries 0 c).attempts
             - 1) = .capped s ∧
       (∀ k < (RpcClient.get_logs_internal server pool f t RpcClient.max_retries 0
           c).attempts - 1, server f t k = .failed) ∧
       (RpcClient.get_logs_internal server pool f t RpcClient.max_retries 0 c).cursor =
         (c + ((RpcClient.get_logs_internal server pool f t RpcClient.max_retries 0
           c).attempts - 1)) % pool) ∧
     ((RpcClient.get_logs_internal server pool f t RpcClient.max_retries 0 c).result =
         .error .otherError →
       (RpcClient.get_logs_internal server pool f t RpcClient.max_retries 0 c).attempts = 6 ∧
       (∀ k < 6, server f t k = .failed) ∧
       (RpcClient.get_logs_internal server pool f t RpcClient.max_retries 0 c).cursor =
         (c + 6) % pool)) := by
  have hmr : RpcClient.max_retries = 5 := rfl
  simp only [hmr]
  constructor
  · rcases RpcClient.retry_call_characterize op pool hp 5 0 c hc with
      ⟨hf, hatt, hall, hcur⟩ | ⟨ht, h1, h2, hok, hmid, hcur⟩
    · refine ⟨by omega, fun _ => ⟨by omega, fun k hk => hall k (by omega) (by omega),
        by simpa using hcur⟩, fun htr => absurd htr (by rw [hf]; intro hh; cases hh)⟩
    · refine ⟨by omega, fun hfa => absurd hfa (by rw [ht]; intro hh; cases hh),
        fun _ => ⟨hok, fun k hk => hmid k (by omega) hk, by simpa using hcur⟩⟩
  · rcases RpcClient.get_logs_internal_characterize server pool f t hp
        5 0 c hc with
      ⟨⟨logs, hres, hat⟩, h1, h2, hmid, hcur⟩ |
      ⟨⟨s, hres, hat⟩, h1, h2, hmid, hcur⟩ | ⟨hres, hat, hall, hcur⟩
    · refine ⟨by omega, ?_, ?_, ?_⟩
      · intro logs' hres'
        rw [hres'] at hres
        cases hres
        exact ⟨hat, fun k hk => hmid k (by omega) hk, by simpa using hcur⟩
      · intro s hres'
        rw [hres'] at hres
        cases hres
      · intro hres'
        rw [hres'] at hres
        cases hres
    · refine ⟨by omega, ?_, ?_, ?_⟩
      · intro logs' hres'
        rw [hres'] at hres
        cases hres
      · intro s' hres'
        rw [hres'] at hres
        cases hres
        exact ⟨hat, fun k hk => hmid k (by omega) hk, by simpa using hcur⟩
      · intro hres'
        rw [hres'] at hres
        cases hres
    · refine ⟨by omega, ?_, ?_, ?_⟩
      · intro logs' hres'
        rw [hres'] at hres
        cases hres
      · intro s' hres'
        rw [hres'] at hres
        cases hres
      · intro _
        exact ⟨by omega, fun k hk => hall k (by omega) (by omega), by simpa using hcur⟩

/-- Witness for C7: a three-endpoint pool whose every attempt fails, entered
at cursor 1. -/
theorem retry_attempts_rotation_spec_witness :
    (0 < 3 ∧ 1 < 3) ∧
    (((RpcClient.retry_call (fun _ => false) 3 RpcClient.max_retries 0 1).2.2 ≤ 6 ∧
     ((RpcClient.retry_call (fun _ => false) 3 RpcClient.max_retries 0 1).1 = false →
       (RpcClient.retry_call (fun _ => false) 3 RpcClient.max_retries 0 1).2.2 = 6 ∧
       (∀ k < 6, (fun _ => false) k = false) ∧
       (RpcClient.retry_call (fun _ => false) 3 RpcClient.max_retries 0 1).2.1 = (1 + 6) % 3) ∧
     ((RpcClient.retry_call (fun _ => false) 3 RpcClient.max_retries 0 1).1 = true →
       (fun _ => false) ((RpcClient.retry_call (fun _ => false) 3 RpcClient.max_retries 0 1).2.2 - 1) = true ∧
       (∀ k < (RpcClient.retry_call (fun _ => false) 3 RpcClient.max_retries 0 1).2.2 - 1,
         (fun _ => false) k = false) ∧
       (RpcClient.retry_call (fun _ => false) 3 RpcClient.max_retries 0 1).2.1 =
         (1 + ((RpcClient.retry_call (fun _ => false) 3 RpcClient.max_retries 0 1).2.2 - 1)) % 3)) ∧
    ((RpcClient.get_logs_internal (fun _ _ _ => RpcClient.Attempt.failed) 3 0 0 RpcClient.max_retries 0 1).attempts ≤ 6 ∧
     (∀ logs,
       (RpcClient.get_logs_internal (fun _ _ _ => RpcClient.Attempt.failed) 3 0 0 RpcClient.max_retries 0 1).result =
           .ok logs →
       (fun _ _ _ => RpcClient.Attempt.failed) 0 0
           ((RpcClient.get_logs_internal (fun _ _ _ => RpcClient.Attempt.failed) 3 0 0 RpcClient.max_retries 0 1).attempts
             - 1) = .success logs ∧
       (∀ k < (RpcClient.get_logs_internal (fun _ _ _ => RpcClient.Attempt.failed) 3 0 0 RpcClient.max_retries 0
           1).attempts - 1, (fun _ _ _ => RpcClient.Attempt.failed) 0 0 k = .failed) ∧
       (RpcClient.get_logs_internal (fun _ _ _ => RpcClient.Attempt.failed) 3 0 0 RpcClient.max_retries 0 1).cursor =
         (1 + ((RpcClient.get_logs_internal (fun _ _ _ => RpcClient.Attempt.failed) 3 0 0 RpcClient.max_retries 0
           1).attempts - 1)) % 3) ∧
     (∀ s,
       (RpcClient.get_logs_internal (fun _ _ _ => RpcClient.Attempt.failed) 3 0 0 RpcClient.max_retries 0 1).result =
           .error (.maxResults s) →
       (fun _ _ _ => RpcClient.Attempt.failed) 0 0
           ((RpcClient.get_logs_internal (fun _ _ _ => RpcClient.Attempt.failed) 3 0 0 RpcClient.max_retries 0 1).attempts
             - 1) = .capped s ∧
       (∀ k < (RpcClient.get_logs_internal (fun _ _ _ => RpcClient.Attempt.failed) 3 0 0 RpcClient.max_retries 0
           1).attempts - 1, (fun _ _ _ => RpcClient.Attempt.failed) 0 0 k = .failed) ∧
       (RpcClient.get_logs_internal (fun _ _ _ => RpcClient.Attempt.failed) 3 0 0 RpcClient.max_retries 0 1).cursor =
         (1 + ((RpcClient.get_logs_internal (fun _ _ _ => RpcClient.Attempt.failed) 3 0 0 RpcClient.max_retries 0
           1).attempts - 1)) % 3) ∧
     ((RpcClient.get_logs_internal (fun _ _ _ => RpcClient.Attempt.failed) 3 0 0 RpcClient.max_retries 0 1).result =
         .error .otherError →
       (RpcClient.get_logs_internal (fun _ _ _ => RpcClient.Attempt.failed) 3 0 0 RpcClient.max_retries 0 1).attempts = 6 ∧
       (∀ k < 6, (fun _ _ _ => RpcClient.Attempt.failed) 0 0 k = .failed) ∧
       (RpcClient.get_logs_internal (fun _ _ _ => RpcClient.Attempt.failed) 3 0 0 RpcClient.max_retries 0 1).cursor =
         (1 + 6) % 3))) :=
  ⟨⟨by decide, by decide⟩,
   retry_attempts_rotation_spec (fun _ => false) (fun _ _ _ => RpcClient.Attempt.failed)
     3 1 0 0 (by decide) (by decide)⟩

/-- C6.  The adaptive splitter of `get_logs`: a successful fetch of the
full range is returned as is; the recognized result-cap error with a
parsed suggested range `A-B` makes the client issue exactly `[A, B]` and
then continue with `[B+1, to]`, returning the concatenation of the logs;
an error of the sub-range fetch propagates; a result-cap error without a
parsable range, and any other error, are returned to the caller unchanged.
At the retry level the result-cap outcome of the first attempt surfaces
after exactly one attempt with the cursor not rotated — it bypasses the
retry loop — while all other failures go through retry with rotation (see
the C7 theorem). -/
theorem get_logs_split_spec
    (internal : Nat → Nat → Except RpcClient.LogError (List Nat))
    (server : Nat → Nat → Nat → RpcClient.Attempt) (pool c : Nat)
    (f t a b : Nat) (l1 l2 logs : List Nat) (e : RpcClient.LogError)
    (hft : f ≤ t) :
    (internal f t = .ok logs → RpcClient.get_logs internal f t = .ok logs) ∧
    (internal f t = .error (.maxResults (some (a, b))) → internal a b = .ok l1 →
      b < t → internal (b + 1) t = .ok l2 →
      RpcClient.get_logs internal f t = .ok (l1 ++ l2)) ∧
    (internal f t = .error (.maxResults (some (a, b))) → internal a b = .error e →
      RpcClient.get_logs internal f t = .error e) ∧
    (internal f t = .error (.maxResults none) →
      RpcClient.get_logs internal f t = .error (.maxResults none)) ∧
    (internal f t = .error .otherError →
      RpcClient.get_logs internal f t = .error .otherError) ∧
    (∀ s, server f t 0 = .capped s →
      RpcClient.get_logs_internal server pool f t RpcClient.max_retries 0 c =
        ⟨.error (.maxResults s), c, 1⟩) := by
  have hfuel : t + 2 - f = (t + 1 - f) + 1 := by omega
  refine ⟨?_, ?_, ?_, ?_, ?_, ?_⟩
  · intro h1
    rw [RpcClient.get_logs, hfuel]
    simp only [RpcClient.get_logs_go]
    rw [if_neg (Nat.not_lt.mpr hft), h1]
  · intro h1 h2 hbt h3
    rw [RpcClient.get_logs, hfuel]
    simp only [RpcClient.get_logs_go]
    rw [if_neg (Nat.not_lt.mpr hft), h1]
    dsimp only
    rw [h2]
    have hsub : RpcClient.get_logs_go internal t (t + 1 - f) (b + 1) = .ok l2 := by
      rw [show t + 1 - f = (t - f) + 1 from by omega]
      simp only [RpcClient.get_logs_go]
      rw [if_neg (by omega), h3]
    dsimp only
    rw [hsub]
    rfl
  · intro h1 h2
    rw [RpcClient.get_logs, hfuel]
    simp only [RpcClient.get_logs_go]
    rw [if_neg (Nat.not_lt.mpr hft), h1]
    dsimp only
    rw [h2]
  · intro h1
    rw [RpcClient.get_logs, hfuel]
    simp only [RpcClient.get_logs_go]
    rw [if_neg (Nat.not_lt.mpr hft), h1]
  · intro h1
    rw [RpcClient.get_logs, hfuel]
    simp only [RpcClient.get_logs_go]
    rw [if_neg (Nat.not_lt.mpr hft), h1]
  · intro s hs
    simp [RpcClient.get_logs_internal, RpcClient.max_retries, hs]

/-- Witness for C6: the spec's split-range scenario — the server caps
`[100, 199]` suggesting `100-149`; the splitter issues `[100, 149]` then
`[150, 199]` and returns the union. -/
theorem get_logs_split_spec_witness :
    (100 ≤ 199) ∧
    (((fun x y => if x = 100 ∧ y = 199 then Except.error (RpcClient.LogError.maxResults (some (100, 149))) else if x = 100 ∧ y = 149 then Except.ok [1] else if x = 150 ∧ y = 199 then Except.ok [2] else Except.error RpcClient.LogError.otherError) 100 199 = .ok [5] → RpcClient.get_logs (fun x y => if x = 100 ∧ y = 199 then Except.error (RpcClient.LogError.maxResults (some (100, 149))) else if x = 100 ∧ y = 149 then Except.ok [1] else if x = 150 ∧ y = 199 then Except.ok [2] else Except.error RpcClient.LogError.otherError) 100 199 = .ok [5]) ∧
    ((fun x y => if x = 100 ∧ y = 199 then Except.error (RpcClient.LogError.maxResults (some (100, 149))) else if x = 100 ∧ y = 149 then Except.ok [1] else if x = 150 ∧ y = 199 then Except.ok [2] else Except.error RpcClient.LogError.otherError) 100 199 = .error (.maxResults (some (100, 149))) → (fun x y => if x = 100 ∧ y = 199 then Except.error (RpcClient.LogError.maxResults (some (100, 149))) else if x = 100 ∧ y = 149 then Except.ok [1] else if x = 150 ∧ y = 199 then Except.ok [2] else Except.error RpcClient.LogError.otherError) 100 149 = .ok [1] →
      149 < 199 → (fun x y => if x = 100 ∧ y = 199 then Except.error (RpcClient.LogError.maxResults (some (100, 149))) else if x = 100 ∧ y = 149 then Except.ok [1] else if x = 150 ∧ y = 199 then Except.ok [2] else Except.error RpcClient.LogError.otherError) 150 199 = .ok [2] →
      RpcClient.get_logs (fun x y => if x = 100 ∧ y = 199 then Except.error (RpcClient.LogError.maxResults (some (100, 149))) else if x = 100 ∧ y = 149 then Except.ok [1] else if x = 150 ∧ y = 199 then Except.ok [2] else Except.error RpcClient.LogError.otherError) 100 199 = .ok ([1] ++ [2])) ∧
    ((fun x y => if x = 100 ∧ y = 199 then Except.error (RpcClient.LogError.maxResults (some (100, 149))) else if x = 100 ∧ y = 149 then Except.ok [1] else if x = 150 ∧ y = 199 then Except.ok [2] else Except.error RpcClient.LogError.otherError) 100 199 = .error (.maxResults (some (100, 149))) → (fun x y => if x = 100 ∧ y = 199 then Except.error (RpcClient.LogError.maxResults (some (100, 149))) else if x = 100 ∧ y = 149 then Except.ok [1] else if x = 150 ∧ y = 199 then Except.ok [2] else Except.error RpcClient.LogError.otherError) 100 149 = .error RpcClient.LogError.otherError →
      RpcClient.get_logs (fun x y => if x = 100 ∧ y = 199 then Except.error (RpcClient.LogError.maxResults (some (100, 149))) else if x = 100 ∧ y = 149 then Except.ok [1] else if x = 150 ∧ y = 199 then Except.ok [2] else Except.error RpcClient.LogError.otherError) 100 199 = .error RpcClient.LogError.otherError) ∧
    ((fun x y => if x = 100 ∧ y = 199 then Except.error (RpcClient.LogError.maxResults (some (100, 149))) else if x = 100 ∧ y = 149 then Except.ok [1] else if x = 150 ∧ y = 199 then Except.ok [2] else Except.error RpcClient.LogError.otherError) 100 199 = .error (.maxResults none) →
      RpcClient.get_logs (fun x y => if x = 100 ∧ y = 199 then Except.error (RpcClient.LogError.maxResults (some (100, 149))) else if x = 100 ∧ y = 149 then Except.ok [1] else if x = 150 ∧ y = 199 then Except.ok [2] else Except.error RpcClient.LogError.otherError) 100 199 = .error (.maxResults none)) ∧
    ((fun x y => if x = 100 ∧ y = 199 then Except.error (RpcClient.LogError.maxResults (some (100, 149))) else if x = 100 ∧ y = 149 then Except.ok [1] else if x = 150 ∧ y = 199 then Except.ok [2] else Except.error RpcClient.LogError.otherError) 100 199 = .error .otherError →
      RpcClient.get_logs (fun x y => if x = 100 ∧ y = 199 then Except.error (RpcClient.LogError.maxResults (some (100, 149))) else if x = 100 ∧ y = 149 then Except.ok [1] else if x = 150 ∧ y = 199 then Except.ok [2] else Except.error RpcClient.LogError.otherError) 100 199 = .error .otherError) ∧
    (∀ s, (fun _ _ _ => RpcClient.Attempt.capped (some (100, 149))) 100 199 0 = .capped s →
      RpcClient.get_logs_internal (fun _ _ _ => RpcClient.Attempt.capped (some (100, 149))) 3 100 199 RpcClient.max_retries 0 0 =
        ⟨.error (.maxResults s), 0, 1⟩)) ∧
    RpcClient.get_logs (fun x y => if x = 100 ∧ y = 199 then Except.error (RpcClient.LogError.maxResults (some (100, 149))) else if x = 100 ∧ y = 149 then Except.ok [1] else if x = 150 ∧ y = 199 then Except.ok [2] else Except.error RpcClient.LogError.otherError) 100 199 = Except.ok [1, 2] :=
  ⟨by decide,
   get_logs_split_spec (fun x y => if x = 100 ∧ y = 199 then Except.error (RpcClient.LogError.maxResults (some (100, 149))) else if x = 100 ∧ y = 149 then Except.ok [1] else if x = 150 ∧ y = 199 then Except.ok [2] else Except.error RpcClient.LogError.otherError)
     (fun _ _ _ => RpcClient.Attempt.capped (some (100, 149))) 3 0 100 199 100 149 [1] [2] [5]
     RpcClient.LogError.otherError (by decide),
   by decide⟩

theorem decDigitsAux_append :
    ∀ (fuel n : Nat) (acc : List Nat),
      decDigitsAux fuel n acc = decDigitsAux fuel n [] ++ acc := by
  intro fuel
  induction fuel with
  | zero => intro n acc; rfl
  | succ fuel ih =>
    intro n acc
    by_cases h : n < 10
    · simp [decDigitsAux, h]
    · simp only [decDigitsAux, h, if_neg, not_false_iff]
      rw [ih (n / 10) (n % 10 :: acc), ih (n / 10) [n % 10], List.append_assoc]
      rfl

theorem decDigitsAux_fuel :
    ∀ (n fuel fuel' : Nat), n < fuel → n < fuel' →
      decDigitsAux fuel n [] = decDigitsAux fuel' n [] := by
  intro n
  induction n using Nat.strong_induction_on with
  | _ n ih =>
    intro fuel fuel' hf hf'
    match fuel, hf with
    | g + 1, hf =>
    match fuel', hf' with
    | g' + 1, hf' =>
    by_cases h : n < 10
    · simp [decDigitsAux, h]
    · simp only [decDigitsAux, h, if_neg, not_false_iff]
      rw [decDigitsAux_append g, decDigitsAux_append g']
      have hlt : n / 10 < n := Nat.div_lt_self (by omega) (by omega)
      rw [ih (n / 10) hlt g g' (by omega) (by omega)]

theorem decDigits_unfold (n : Nat) :
    decDigits n = if n < 10 then [n] else decDigits (n / 10) ++ [n % 10] := by
  by_cases h : n < 10
  · simp [decDigits, decDigitsAux, h]
  · rw [if_neg h]
    show decDigitsAux (n + 1) n [] = _
    have hn1 : n + 1 = n + 1 := rfl
    simp only [decDigitsAux, h, if_neg, not_false_iff]
    rw [decDigitsAux_append n]
    have hlt : n / 10 < n := Nat.div_lt_self (by omega) (by omega)
    rw [decDigitsAux_fuel (n / 10) n (n / 10 + 1) (by omega) (by omega)]
    rfl

theorem decValue_helper (l : List Nat) :
    ∀ s : Nat, l.foldl (fun s d => 10 * s + d) s =
      s * 10 ^ l.length + l.foldl (fun s d => 10 * s + d) 0 := by
  induction l with
  | nil => intro s; simp
  | cons d t ih =>
    intro s
    simp only [List.foldl_cons, List.length_cons]
    rw [ih (10 * s + d), ih (10 * 0 + d)]
    ring

theorem decValue_cons (d : Nat) (t : List Nat) :
    decValue (d :: t) = d * 10 ^ t.length + decValue t := by
  show List.foldl _ _ _ = _
  rw [List.foldl_cons, decValue_helper t (10 * 0 + d)]
  unfold decValue
  ring

theorem decValue_append_singleton (l : List Nat) (d : Nat) :
    decValue (l ++ [d]) = 10 * decValue l + d := by
  show List.foldl _ _ _ = _
  rw [List.foldl_append]
  rfl

theorem decValue_decDigits (n : Nat) : decValue (decDigits n) = n := by
  induction n using Nat.strong_induction_on with
  | _ n ih =>
    rw [decDigits_unfold]
    by_cases h : n < 10
    · simp [h, decValue]
    · rw [if_neg h, decValue_append_singleton]
      rw [ih (n / 10) (Nat.div_lt_self (by omega) (by omega))]
      omega

theorem decDigits_lt_ten (n : Nat) : ∀ d ∈ decDigits n, d < 10 := by
  induction n using Nat.strong_induction_on with
  | _ n ih =>
    rw [decDigits_unfold]
    by_cases h : n < 10
    · simp [h]
    · rw [if_neg h]
      intro d hd
      rcases List.mem_append.mp hd with hm | hm
      · exact ih (n / 10) (Nat.div_lt_self (by omega) (by omega)) d hm
      · rw [List.mem_singleton.mp hm]
        omega

theorem decDigits_ne_nil (n : Nat) : decDigits n ≠ [] := by
  rw [decDigits_unfold]
  by_cases h : n < 10
  · simp [h]
  · rw [if_neg h]
    simp

theorem decDigits_length_le (n : Nat) :
    ∀ k : Nat, n < 10 ^ k → 1 ≤ k → (decDigits n).length ≤ k := by
  induction n using Nat.strong_induction_on with
  | _ n ih =>
    intro k hk h1
    rw [decDigits_unfold]
    by_cases h : n < 10
    · rw [if_pos h]
      simpa using h1
    · rw [if_neg h]
      have hk2 : 2 ≤ k := by
        by_contra hcon
        have : k = 1 := by omega
        rw [this] at hk
        simp at hk
        omega
      have hdiv : n / 10 < 10 ^ (k - 1) := by
        rw [Nat.div_lt_iff_lt_mul (by omega)]
        calc n < 10 ^ k := hk
        _ = 10 ^ (k - 1) * 10 := by
              rw [← Nat.pow_succ]
              congr 1
              omega
      have := ih (n / 10) (Nat.div_lt_self (by omega) (by omega)) (k - 1) hdiv (by omega)
      simp only [List.length_append, List.length_singleton]
      omega

theorem decDigits_head_ne_zero (n : Nat) (hn : n ≠ 0) :
    ∀ d, (decDigits n).head? = some d → d ≠ 0 := by
  induction n using Nat.strong_induction_on with
  | _ n ih =>
    intro d hd
    rw [decDigits_unfold] at hd
    by_cases h : n < 10
    · rw [if_pos h] at hd
      simp only [List.head?_cons, Option.some.injEq] at hd
      omega
    · rw [if_neg h] at hd
      rcases List.exists_cons_of_ne_nil (decDigits_ne_nil (n / 10)) with ⟨hd0, tl, hcons⟩
      rw [hcons] at hd
      simp only [List.cons_append, List.head?_cons, Option.some.injEq] at hd
      refine ih (n / 10) (Nat.div_lt_self (by omega) (by omega)) (by omega) d ?_
      rw [hcons, List.head?_cons, hd]

theorem decValue_bound (l : List Nat) (h : ∀ d ∈ l, d < 10) :
    decValue l < 10 ^ l.length := by
  induction l with
  | nil => simp [decValue]
  | cons d t ih =>
    rw [decValue_cons, List.length_cons, Nat.pow_succ]
    have hd : d < 10 := h d (List.mem_cons_self d t)
    have ht := ih fun x hx => h x (List.mem_cons_of_mem _ hx)
    have : d * 10 ^ t.length ≤ 9 * 10 ^ t.length := by
      apply Nat.mul_le_mul_right
      omega
    omega

theorem digitChar_lt_iff :
    ∀ d1, d1 < 10 → ∀ d2, d2 < 10 →
      (Nat.digitChar d1 < Nat.digitChar d2 ↔ d1 < d2) := by decide

theorem digitChar_inj :
    ∀ d1, d1 < 10 → ∀ d2, d2 < 10 → Nat.digitChar d1 = Nat.digitChar d2 → d1 = d2 := by
  decide

theorem charVal_digitChar :
    ∀ d, d < 10 → BalanceRepository.charVal (Nat.digitChar d) = some d := by decide

theorem digitChar_ne_zero_char :
    ∀ d, d < 10 → d ≠ 0 → (Nat.digitChar d == '0') = false := by decide

theorem lex_of_decValue_lt :
    ∀ (l1 l2 : List Nat), l1.length = l2.length → (∀ d ∈ l1, d < 10) →
      (∀ d ∈ l2, d < 10) → decValue l1 < decValue l2 → List.Lex (· < ·) l1 l2 := by
  intro l1
  induction l1 with
  | nil =>
    intro l2 hlen _ _ hv
    cases l2 with
    | nil => exact absurd hv (by simp [decValue])
    | cons d t => cases hlen
  | cons d1 t1 ih =>
    intro l2 hlen h1 h2 hv
    cases l2 with
    | nil => cases hlen
    | cons d2 t2 =>
      have hlen' : t1.length = t2.length := by simpa using hlen
      rcases Nat.lt_trichotomy d1 d2 with hlt | heq | hgt
      · exact List.Lex.rel hlt
      · subst heq
        apply List.Lex.cons
        apply ih t2 hlen' (fun x hx => h1 x (List.mem_cons_of_mem _ hx))
          (fun x hx => h2 x (List.mem_cons_of_mem _ hx))
        rw [decValue_cons, decValue_cons, hlen'] at hv
        omega
      · exfalso
        rw [decValue_cons, decValue_cons, hlen'] at hv
        have hb1 := decValue_bound t2 fun x hx => h2 x (List.mem_cons_of_mem _ hx)
        have : (d2 + 1) * 10 ^ t2.length ≤ d1 * 10 ^ t2.length := by
          apply Nat.mul_le_mul_right
          omega
        have hexp : 0 < (10 : Nat) ^ t2.length := Nat.pos_pow_of_pos _ (by omega)
        nlinarith

theorem lex_map_digitChar :
    ∀ (l1 l2 : List Nat), (∀ d ∈ l1, d < 10) → (∀ d ∈ l2, d < 10) →
      List.Lex (· < ·) l1 l2 →
      List.Lex (· < ·) (l1.map Nat.digitChar) (l2.map Nat.digitChar) := by
  intro l1
  induction l1 with
  | nil =>
    intro l2 _ _ hlex
    cases hlex with
    | nil => exact List.Lex.nil
  | cons d1 t1 ih =>
    intro l2 h1 h2 hlex
    cases hlex with
    | rel hr =>
      apply List.Lex.rel
      exact (digitChar_lt_iff d1 (h1 d1 (List.mem_cons_self _ _)) _
        (h2 _ (List.mem_cons_self _ _))).mpr hr
    | cons htail =>
      apply List.Lex.cons
      exact ih _ (fun x hx => h1 x (List.mem_cons_of_mem _ hx))
        (fun x hx => h2 x (List.mem_cons_of_mem _ hx)) htail

theorem lex_asymm :
    ∀ (l1 l2 : List Char), List.Lex (· < ·) l1 l2 → ¬ List.Lex (· < ·) l2 l1 := by
  intro l1
  induction l1 with
  | nil =>
    intro l2 _ hcon
    cases hcon
  | cons c1 t1 ih =>
    intro l2 h hcon
    cases h with
    | rel hr =>
      cases hcon with
      | rel hr' => exact absurd hr (lt_asymm hr')
      | cons _ => exact absurd hr (lt_irrefl _)
    | cons htail =>
      cases hcon with
      | rel hr' => exact absurd hr' (lt_irrefl _)
      | cons htail' => exact ih _ htail htail'

theorem decValue_replicate_zero (k : Nat) (l : List Nat) :
    decValue (List.replicate k 0 ++ l) = decValue l := by
  induction k with
  | zero => rfl
  | succ k ih =>
    show decValue (0 :: (List.replicate k 0 ++ l)) = _
    unfold decValue at ih ⊢
    simpa using ih

theorem dropWhile_replicate_zero_char (k : Nat) (l : List Char) :
    List.dropWhile (fun c => c == '0') (List.replicate k '0' ++ l) =
      List.dropWhile (fun c => c == '0') l := by
  induction k with
  | zero => rfl
  | succ k ih =>
    show List.dropWhile _ ('0' :: (List.replicate k '0' ++ l)) = _
    rw [List.dropWhile_cons_of_pos (by decide)]
    exact ih

theorem parseDecimal_map_digitChar :
    ∀ (l : List Nat) (s : Nat), (∀ d ∈ l, d < 10) →
      (l.map Nat.digitChar).foldlM
        (fun s c => (BalanceRepository.charVal c).map fun d => 10 * s + d) s =
      some (l.foldl (fun s d => 10 * s + d) s) := by
  intro l
  induction l with
  | nil => intro s _; rfl
  | cons d t ih =>
    intro s h
    simp only [List.map_cons, List.foldlM_cons]
    rw [charVal_digitChar d (h d (List.mem_cons_self _ _))]
    simp only [Option.map_some', Option.bind_some]
    exact ih (10 * s + d) fun x hx => h x (List.mem_cons_of_mem _ hx)

/-- C9.  The padded-balance representation: parsing the padded rendering of
any 256-bit value returns the value; the padding of zero is a string of
exactly 78 `'0'` characters; and the representation is monotone — ordering
padded strings lexicographically agrees with numeric ordering. -/
theorem pad_balance_spec (x y : Nat) (hx : x < u256size) (hy : y < u256size) :
    BalanceRepository.parse_padded (BalanceRepository.pad_balance x) = some x ∧
    BalanceRepository.pad_balance 0 = ⟨List.replicate 78 '0'⟩ ∧
    (x ≤ y → BalanceRepository.pad_balance x ≤ BalanceRepository.pad_balance y) := by
  have hpow : u256size < 10 ^ 78 := by decide
  have hlen : ∀ z : Nat, z < u256size → (decDigits z).length ≤ 78 := fun z hz =>
    decDigits_length_le z 78 (lt_trans hz hpow) (by omega)
  have hmap : ∀ z : Nat, (BalanceRepository.pad_balance z).data =
      (List.replicate (78 - (decDigits z).length) 0 ++ decDigits z).map Nat.digitChar := by
    intro z
    rw [List.map_append, List.map_replicate]
    rfl
  have hdig : ∀ z : Nat,
      ∀ d ∈ List.replicate (78 - (decDigits z).length) 0 ++ decDigits z, d < 10 := by
    intro z d hd
    rcases List.mem_append.mp hd with hm | hm
    · rw [List.eq_of_mem_replicate hm]
      omega
    · exact decDigits_lt_ten z d hm
  have hval : ∀ z : Nat,
      decValue (List.replicate (78 - (decDigits z).length) 0 ++ decDigits z) = z := by
    intro z
    rw [decValue_replicate_zero, decValue_decDigits]
  have hplen : ∀ z : Nat, z < u256size →
      (List.replicate (78 - (decDigits z).length) 0 ++ decDigits z).length = 78 := by
    intro z hz
    have := hlen z hz
    simp only [List.length_append, List.length_replicate]
    omega
  refine ⟨?_, by decide, ?_⟩
  · by_cases hx0 : x = 0
    · subst hx0
      decide
    · rcases List.exists_cons_of_ne_nil (decDigits_ne_nil x) with ⟨h0, tl, hcons⟩
      have h0lt : h0 < 10 := decDigits_lt_ten x h0 (by rw [hcons]; exact List.mem_cons_self _ _)
      have h0ne : h0 ≠ 0 :=
        decDigits_head_ne_zero x hx0 h0 (by rw [hcons, List.head?_cons])
      have htrim : (BalanceRepository.pad_balance x).data.dropWhile (fun c => c == '0') =
          (decDigits x).map Nat.digitChar := by
        show (List.replicate (78 - (decDigits x).length) '0' ++
          (decDigits x).map Nat.digitChar).dropWhile (fun c => c == '0') = _
        rw [dropWhile_replicate_zero_char, hcons, List.map_cons,
          List.dropWhile_cons_of_neg]
        simp [digitChar_ne_zero_char h0 h0lt h0ne]
      simp only [BalanceRepository.parse_padded, htrim]
      rw [hcons, List.map_cons]
      rw [if_neg (by simp)]
      simp only [BalanceRepository.from_str, List.isEmpty_cons, Bool.false_eq_true,
        if_neg, not_false_iff]
      have hparse : BalanceRepository.parseDecimal (Nat.digitChar h0 :: tl.map Nat.digitChar) =
          some (decValue (decDigits x)) := by
        rw [← List.map_cons, ← hcons]
        exact parseDecimal_map_digitChar (decDigits x) 0 (decDigits_lt_ten x)
      rw [hparse, decValue_decDigits]
      simp [hx]
  · intro hxy
    rw [String.le_iff_toList_le]
    apply le_of_not_lt
    intro hcon
    have hlex : List.Lex (· < ·) (BalanceRepository.pad_balance y).data
        (BalanceRepository.pad_balance x).data := hcon
    by_cases heq : x = y
    · subst heq
      exact lex_asymm _ _ hlex hlex
    · have hxy2 : x < y := by omega
      have hdlex : List.Lex (· < ·)
          (List.replicate (78 - (decDigits x).length) 0 ++ decDigits x)
          (List.replicate (78 - (decDigits y).length) 0 ++ decDigits y) := by
        apply lex_of_decValue_lt _ _ (by rw [hplen x hx, hplen y hy]) (hdig x) (hdig y)
        rw [hval, hval]
        exact hxy2
      have hclex := lex_map_digitChar _ _ (hdig x) (hdig y) hdlex
      rw [← hmap, ← hmap] at hclex
      exact lex_asymm _ _ hclex hlex

/-- Witness for C9 at `x = 3`, `y = 7`. -/
theorem pad_balance_spec_witness :
    ((3 : Nat) < u256size ∧ (7 : Nat) < u256size) ∧
    (BalanceRepository.parse_padded (BalanceRepository.pad_balance 3) = some 3 ∧
     BalanceRepository.pad_balance 0 = ⟨List.replicate 78 '0'⟩ ∧
     ((3 : Nat) ≤ 7 → BalanceRepository.pad_balance 3 ≤ BalanceRepository.pad_balance 7)) :=
  ⟨⟨by decide, by decide⟩, pad_balance_spec 3 7 (by decide) (by decide)⟩

namespace Scanner

theorem windowChain_append :
    ∀ (l : List (Nat × Nat)) (a c : Nat) (w : Nat × Nat),
      WindowChain a l c → w.1 = c → w.1 ≤ w.2 →
      WindowChain a (l ++ [w]) (w.2 + 1) := by
  intro l
  induction l with
  | nil =>
    intro a c w hch hw1 hw2
    have : a = c := hch
    exact ⟨by omega, hw2, rfl⟩
  | cons v rest ih =>
    intro a c w hch hw1 hw2
    rcases hch with ⟨hv1, hv2, hrest⟩
    exact ⟨hv1, hv2, ih _ _ w hrest hw1 hw2⟩

theorem windowChain_chain' :
    ∀ (l : List (Nat × Nat)) (a c : Nat), WindowChain a l c →
      List.Chain' (fun w w' : Nat × Nat => w'.1 = w.2 + 1 ∧ w.2 < w'.2) l ∧
      (∀ w ∈ l, w.1 ≤ w.2) ∧
      (∀ w, l.head? = some w → w.1 = a) := by
  intro l
  induction l with
  | nil => intro a c _; exact ⟨List.chain'_nil, by simp, by simp⟩
  | cons v rest ih =>
    intro a c hch
    rcases hch with ⟨hv1, hv2, hrest⟩
    rcases ih _ _ hrest with ⟨hchain, hwf, hhead⟩
    refine ⟨?_, ?_, ?_⟩
    · cases rest with
      | nil => exact List.chain'_singleton v
      | cons u rest' =>
        rw [List.chain'_cons]
        refine ⟨⟨hhead u rfl, ?_⟩, hchain⟩
        have hu1 : u.1 = v.2 + 1 := hhead u rfl
        have hu12 : u.1 ≤ u.2 := hwf u (List.mem_cons_self _ _)
        omega
    · intro w hw
      rcases List.mem_cons.mp hw with rfl | hm
      · exact hv2
      · exact hwf w hm
    · intro w hw
      rw [List.head?_cons, Option.some.injEq] at hw
      rw [← hw]
      exact hv1

theorem scan_loop_invariant (batch_size max_pending lp : Nat) (hbs : 1 ≤ batch_size) :
    ∀ s : ScanState, ScanReachable batch_size max_pending lp s →
      WindowChain s.nextToProcess s.pendingFetches s.nextToFetch ∧
      WindowChain (lp + 1) s.sentBatches s.nextToProcess := by
  intro s h
  induction h with
  | start => exact ⟨rfl, rfl⟩
  | step hreach hstep ih =>
    rcases ih with ⟨hpend, hsent⟩
    cases hstep with
    | fire latest hroom hle =>
      refine ⟨?_, hsent⟩
      apply windowChain_append _ _ _ _ hpend rfl
      dsimp only
      omega
    | complete w rest has_transfers hq =>
      rw [hq] at hpend
      rcases hpend with ⟨hw1, hw2, hrest⟩
      refine ⟨hrest, ?_⟩
      dsimp only
      have hcond : ∀ b : Bool, (b || decide (w.1 ≤ w.2)) = true := by
        intro b
        simp [hw2]
      rw [← hw1]
      rw [hcond has_transfers, if_pos rfl]
      exact windowChain_append _ _ _ _ hsent hw1 hw2
    | idle latest hcaught hempty =>
      rw [hempty] at hpend
      refine ⟨?_, hsent⟩
      rw [hempty]
      exact rfl

end Scanner

/-- C4.  Under any interleaving of the forward loop's events — up to
`max_pending` concurrent fetches completing in arbitrary order, drained
oldest-first — the sequence of windows sent to the insertion worker is
contiguous and has strictly increasing `end_block`s: each sent window is
well-formed, each next window starts at the previous window's
`end_block + 1`, and the first window starts at `last_processed_block + 1`. -/
theorem forward_batches_ordered_contiguous (batch_size max_pending lp : Nat)
    (hbs : 1 ≤ batch_size) (s : Scanner.ScanState)
    (h : Scanner.ScanReachable batch_size max_pending lp s) :
    List.Chain' (fun w w' : Nat × Nat => w'.1 = w.2 + 1 ∧ w.2 < w'.2) s.sentBatches ∧
    (∀ w ∈ s.sentBatches, w.1 ≤ w.2) ∧
    (∀ w, s.sentBatches.head? = some w → w.1 = lp + 1) := by
  rcases Scanner.scan_loop_invariant batch_size max_pending lp hbs s h with ⟨_, hsent⟩
  exact Scanner.windowChain_chain' _ _ _ hsent

/-- Witness for C4: fire `[1, 10]` against tip 25 with batch size 10, then
drain it; the worker received exactly the window `(1, 10)`. -/
theorem forward_batches_ordered_contiguous_witness :
    (1 ≤ 10 ∧ Scanner.ScanReachable 10 2 0 ⟨11, 11, [], [(1, 10)]⟩) ∧
    (List.Chain' (fun w w' : Nat × Nat => w'.1 = w.2 + 1 ∧ w.2 < w'.2)
        (Scanner.ScanState.mk 11 11 [] [(1, 10)]).sentBatches ∧
     (∀ w ∈ (Scanner.ScanState.mk 11 11 [] [(1, 10)]).sentBatches, w.1 ≤ w.2) ∧
     (∀ w, (Scanner.ScanState.mk 11 11 [] [(1, 10)]).sentBatches.head? = some w →
       w.1 = 0 + 1)) := by
  have h1 : Scanner.ScanReachable 10 2 0 (Scanner.initState 0) :=
    Scanner.ScanReachable.start
  have h2 := Scanner.ScanReachable.step h1
    (Scanner.ScanStep.fire (Scanner.initState 0) 25 (by decide) (by decide))
  have h3 := Scanner.ScanReachable.step h2
    (Scanner.ScanStep.complete _ (1, 10) [] false rfl)
  have hreach : Scanner.ScanReachable 10 2 0 ⟨11, 11, [], [(1, 10)]⟩ := h3
  exact ⟨⟨by decide, hreach⟩,
    forward_batches_ordered_contiguous 10 2 0 (by decide) _ hreach⟩
